import Mathlib

/-!
Verification of the edd-gateway routing and proxy logic.

The Go sources are shallowly embedded:
* strings are `List Char`, raw network bytes are `List Nat`;
* Go maps become functions into `Option`;
* the route table's radix tree (`internal/router`, radix version with the
  LRU cache) becomes the inductive `RNode` with purely functional
  insert / lookup / remove;
* the LRU cache (map + recency list) becomes an association list ordered
  by recency (head = most recently used);
* fallible operations return `Option` or `Except`.
-/

namespace EddGateway

/-- Strings of the Go source, as lists of characters. -/
abbrev Str := List Char

/-- Model of `StaticRoute` from internal/router/router.go. -/
structure StaticRoute where
  ID : Int
  Host : Str
  PathPrefix : Str
  Target : Str
  StripPrefix : Bool
  Priority : Int
deriving DecidableEq, Repr

/-- Model of `radixNode` from the route table: a node of the per-host radix tree.
`pfx` is the Go field `prefix`; `route` is nil-able, hence `Option`. -/
inductive RNode : Type where
  | mk (pfx : Str) (route : Option StaticRoute) (children : List RNode)
deriving Repr

/-- The edge label of a node. -/
def RNode.pfx : RNode → Str
  | .mk p _ _ => p

/-- The optional route pointer of a node. -/
def RNode.route : RNode → Option StaticRoute
  | .mk _ r _ => r

/-- The children of a node. -/
def RNode.children : RNode → List RNode
  | .mk _ _ cs => cs

@[simp] theorem RNode.pfx_mk (p r cs) : (RNode.mk p r cs).pfx = p := rfl

@[simp] theorem RNode.route_mk (p r cs) : (RNode.mk p r cs).route = r := rfl

@[simp] theorem RNode.children_mk (p r cs) : (RNode.mk p r cs).children = cs := rfl

/-- Model of `commonPrefix` from the route table: length of the longest common
prefix of two strings. -/
def commonPrefix : Str → Str → Nat
  | a :: as, b :: bs => if a = b then commonPrefix as bs + 1 else 0
  | _, _ => 0

/-- The Go loops scan `node.children` in order for the first child `c`
with `len(c.prefix) > 0 && c.prefix[0] == b`; this is that scan. -/
def findChild (cs : List RNode) (b : Char) : Option RNode :=
  cs.find? (fun c => c.pfx.head? = some b)

theorem findChild_head {cs : List RNode} {b : Char} {c : RNode}
    (h : findChild cs b = some c) : c.pfx.head? = some b := by
  have := List.find?_some h
  simpa using this

theorem head?_some_pos {α : Type} {l : List α} {a : α}
    (h : l.head? = some a) : 1 ≤ l.length := by
  cases l <;> simp_all

theorem commonPrefix_pos {b : Char} {rest : Str} {q : Str}
    (h : q.head? = some b) : 1 ≤ commonPrefix (b :: rest) q := by
  cases q with
  | nil => simp at h
  | cons x xs =>
    simp only [List.head?_cons, Option.some.injEq] at h
    simp [commonPrefix, h]

/-- Replace the first child whose prefix starts with `b` (the Go code's
`node.children[childIdx] = ...` after the scan above). -/
def setChild : List RNode → Char → RNode → List RNode
  | [], _, _ => []
  | c :: rest, b, nc =>
    if c.pfx.head? = some b then nc :: rest else c :: setChild rest b nc

/-- Model of the package-level `insert` of the route table: descend
with longest-common-prefix splitting and set the route pointer at the
node where the path ends. -/
def insertN : RNode → Str → StaticRoute → RNode
  | .mk npfx _ cs, [], r => .mk npfx (some r) cs
  | .mk npfx nroute cs, b :: rest, r =>
    match h : findChild cs b with
    | none => .mk npfx nroute (cs ++ [.mk (b :: rest) (some r) []])
    | some c =>
      let common := commonPrefix (b :: rest) c.pfx
      if common = c.pfx.length then
        .mk npfx nroute (setChild cs b (insertN c ((b :: rest).drop common) r))
      else
        let newChild : RNode :=
          .mk ((b :: rest).take common)
            (if common = (b :: rest).length then some r else none)
            ([RNode.mk (c.pfx.drop common) c.route c.children] ++
              (if common = (b :: rest).length then []
               else [RNode.mk ((b :: rest).drop common) (some r) []]))
        .mk npfx nroute (setChild cs b newChild)
termination_by n path _ => path.length
decreasing_by
  have hc := findChild_head h
  have : 1 ≤ commonPrefix (b :: rest) c.pfx := commonPrefix_pos hc
  simp only [List.length_drop, List.length_cons]
  omega

/-- Exact-path descent: the route stored for path `q` below node `n`
(the abstraction the lookup and insert proofs share). -/
def findNR : RNode → Str → Option StaticRoute
  | n, [] => n.route
  | n, b :: rest =>
    match h : findChild n.children b with
    | none => none
    | some c =>
      if c.pfx <+: (b :: rest) then findNR c ((b :: rest).drop c.pfx.length)
      else none
termination_by n q => q.length
decreasing_by
  have hc := findChild_head h
  have := head?_some_pos hc
  simp only [List.length_drop, List.length_cons]
  omega

/-- The descent loop of the route table's `lookup`: keep the deepest
route pointer seen, stop when no child matches, the remaining path is
shorter than the child's prefix, or the prefixes disagree. Returns the
best route and the path left over after the full descent. -/
def lookupStep : RNode → Str → Option StaticRoute → Option StaticRoute × Str
  | _, [], best => (best, [])
  | n, b :: rest, best =>
    match h : findChild n.children b with
    | none => (best, b :: rest)
    | some c =>
      if c.pfx <+: (b :: rest) then
        lookupStep c ((b :: rest).drop c.pfx.length)
          (match c.route with | some r => some r | none => best)
      else (best, b :: rest)
termination_by n p best => p.length
decreasing_by
  have hc := findChild_head h
  have := head?_some_pos hc
  simp only [List.length_drop, List.length_cons]
  omega

/-- The radix-tree part of the route table's `lookup` (everything after
the cache miss): check the root's route, run the descent, and on a hit
replace an empty leftover with "/"; on a miss return the path unchanged. -/
def lookupRadix (root : RNode) (path : Str) : Option StaticRoute × Str :=
  match lookupStep root path root.route with
  | (none, _) => (none, path)
  | (some r, rem) => (some r, if rem = [] then ['/'] else rem)

/-- Split the children at the first child whose prefix starts with `b`. -/
def splitChild : List RNode → Char → Option (List RNode × RNode × List RNode)
  | [], _ => none
  | c :: rest, b =>
    if c.pfx.head? = some b then some ([], c, rest)
    else
      match splitChild rest b with
      | none => none
      | some (l, x, r) => some (c :: l, x, r)

theorem splitChild_head {cs : List RNode} {b : Char}
    {l : List RNode} {c : RNode} {rs : List RNode}
    (h : splitChild cs b = some (l, c, rs)) : c.pfx.head? = some b := by
  induction cs generalizing l rs with
  | nil => simp [splitChild] at h
  | cons c0 cs0 ih =>
    by_cases h0 : c0.pfx.head? = some b
    · simp only [splitChild, if_pos h0, Option.some.injEq, Prod.mk.injEq] at h
      obtain ⟨-, h2, -⟩ := h
      exact h2 ▸ h0
    · simp only [splitChild, if_neg h0] at h
      cases h4 : splitChild cs0 b with
      | none => rw [h4] at h; exact absurd h (by simp)
      | some v =>
        obtain ⟨l', x', r'⟩ := v
        rw [h4] at h
        simp only [Option.some.injEq, Prod.mk.injEq] at h
        obtain ⟨-, h2, h3⟩ := h
        exact ih (h2 ▸ h3 ▸ h4)

/-- The compaction step of `removeNode`: drop a child that lost its
route and has no children; merge a route-less child with its only
child by concatenating prefixes. -/
def compactChild (c : RNode) : List RNode :=
  match c.route with
  | some _ => [c]
  | none =>
    match c.children with
    | [] => []
    | [only] => [RNode.mk (c.pfx ++ only.pfx) only.route only.children]
    | _ => [c]

/-- Model of `removeNode` from the route table: clear the route pointer at the
exact node for `path`, then compact on the way out. Returns the new
node and whether a route was actually deleted. -/
def removeNodeGo : RNode → Str → RNode × Bool
  | .mk npfx nroute cs, [] =>
    match nroute with
    | some _ => (.mk npfx none cs, true)
    | none => (.mk npfx none cs, false)
  | .mk npfx nroute cs, b :: rest =>
    match h : splitChild cs b with
    | none => (.mk npfx nroute cs, false)
    | some (l, c, rs) =>
      if c.pfx <+: (b :: rest) then
        let res := removeNodeGo c ((b :: rest).drop c.pfx.length)
        if res.2 then (.mk npfx nroute (l ++ compactChild res.1 ++ rs), true)
        else (.mk npfx nroute cs, false)
      else (.mk npfx nroute cs, false)
termination_by n path => path.length
decreasing_by
  have hc := splitChild_head h
  have := head?_some_pos hc
  simp only [List.length_drop, List.length_cons]
  omega

/-- An operation on one host's radix tree: `ins q r` is
`insert(root, q, r)` as called by `routeTable.insert` (with
`q = route.PathPrefix`), `del q` is `removeNode(root, q)` as called by
`routeTable.remove`. -/
inductive TreeOp where
  | ins (q : Str) (r : StaticRoute)
  | del (q : Str)

def applyOp (n : RNode) : TreeOp → RNode
  | .ins q r => insertN n q r
  | .del q => (removeNodeGo n q).1

/-- A finite sequence of inserts and removes applied to a tree. -/
def applyOps (n : RNode) (ops : List TreeOp) : RNode :=
  ops.foldl applyOp n

/-- Model of `cacheEntry`: a cached lookup result (`route` is a nil-able
pointer in Go, hence `Option`). -/
structure CacheEntry where
  route : Option StaticRoute
  remaining : Str
deriving DecidableEq, Repr

/-- Model of `lruCache`. The Go implementation keeps a map plus a
doubly-linked recency list; observably that is an association list with
unique keys ordered by recency, head = most recently used. -/
structure LruCache where
  capacity : Nat
  items : List (Str × CacheEntry)
deriving DecidableEq, Repr

/-- Associative lookup in the cache items (the Go map access). -/
def lookupKey (xs : List (Str × CacheEntry)) (k : Str) : Option CacheEntry :=
  match xs.find? (fun kv => kv.1 = k) with
  | some kv => some kv.2
  | none => none

/-- Drop the entry with key `k` (used to move a node to the front). -/
def removeKey : List (Str × CacheEntry) → Str → List (Str × CacheEntry)
  | [], _ => []
  | kv :: rest, k => if kv.1 = k then rest else kv :: removeKey rest k

/-- Model of `lruCache.get`: on a hit, promote the entry to most
recently used and return it. Returns the possibly reordered cache. -/
def LruCache.get (c : LruCache) (k : Str) : Option CacheEntry × LruCache :=
  match lookupKey c.items k with
  | none => (none, c)
  | some e => (some e, { c with items := (k, e) :: removeKey c.items k })

/-- Model of `lruCache.put`: update-and-promote an existing key, or add
to the front and evict the least recently used entry past capacity. -/
def LruCache.put (c : LruCache) (k : Str) (v : CacheEntry) : LruCache :=
  match lookupKey c.items k with
  | some _ => { c with items := (k, v) :: removeKey c.items k }
  | none =>
    let items := (k, v) :: c.items
    { c with items := if c.capacity < items.length then items.dropLast else items }

/-- Model of `lruCache.clear`. -/
def LruCache.clear (c : LruCache) : LruCache :=
  { c with items := [] }

/-- Default LRU capacity (`DefaultCacheSize`). -/
def DefaultCacheSize : Nat := 512

/-- Model of `routeTable` (radix version with the LRU cache): per-host
radix roots plus the cache. The Go host map becomes a function. -/
structure RouteTable where
  hosts : Str → Option RNode
  cache : LruCache

/-- Model of `newRouteTable`. -/
def newRouteTable : RouteTable :=
  { hosts := fun _ => none, cache := { capacity := DefaultCacheSize, items := [] } }

/-- Model of `routeTable.insert`: insert under the route's host
(creating an empty root if needed) and clear the cache. -/
def RouteTable.insertT (t : RouteTable) (r : StaticRoute) : RouteTable :=
  let root :=
    match t.hosts r.Host with
    | some n => n
    | none => RNode.mk [] none []
  { hosts := fun h => if h = r.Host then some (insertN root r.PathPrefix r) else t.hosts h,
    cache := t.cache.clear }

/-- The cache key `host + ":" + path` built by `routeTable.lookup`. -/
def cacheKeyOf (host path : Str) : Str := host ++ ':' :: path

/-- The radix-descent part of `routeTable.lookup` (what a cache miss
computes), without the cache write. -/
def pureLookup (t : RouteTable) (host path : Str) : Option StaticRoute × Str :=
  match t.hosts host with
  | none => (none, path)
  | some root => lookupRadix root path

/-- Model of `routeTable.lookup`: consult the LRU cache first; on a miss
run the radix descent and cache the result when a route was found.
Returns the result together with the updated table (cache state). -/
def RouteTable.lookupT (t : RouteTable) (host path : Str) :
    (Option StaticRoute × Str) × RouteTable :=
  let key := cacheKeyOf host path
  match t.cache.get key with
  | (some e, cache') => ((e.route, e.remaining), { t with cache := cache' })
  | (none, _) =>
    match pureLookup t host path with
    | (none, rem) => ((none, rem), t)
    | (some r, rem) =>
      ((some r, rem), { t with cache := t.cache.put key ⟨some r, rem⟩ })

/-- Model of `routeTable.remove`: delete the route for `(host, prefix)`,
drop the host entry if its tree became empty, and clear the cache iff a
route was actually removed. -/
def RouteTable.removeT (t : RouteTable) (host pathPre : Str) : RouteTable × Bool :=
  match t.hosts host with
  | none => (t, false)
  | some root =>
    let res := removeNodeGo root pathPre
    let hosts' : Str → Option RNode := fun h =>
      if h = host then
        if res.1.route.isNone && res.1.children.isEmpty then none else some res.1
      else t.hosts h
    ({ hosts := hosts',
       cache := if res.2 then t.cache.clear else t.cache }, res.2)

/-- Build a route table by inserting a list of routes in order into a
fresh table (how `loadStaticRoutes` fills `newRouteTable`). -/
def buildTable (rs : List StaticRoute) : RouteTable :=
  rs.foldl RouteTable.insertT newRouteTable

/-- Router error values (`ErrNotFound`, `ErrNoIP`, `ErrProtocolBlocked`,
`ErrNoRoute`). -/
inductive RouterErr : Type where
  | notFound
  | noIP
  | protocolBlocked
  | noRoute
deriving DecidableEq, Repr

/-- Model of `Container` from internal/router/router.go. `PortMap` is a
Go map, modelled as a function. -/
structure Container where
  ID : Str
  Namespace : Str
  ExternalIP : Str
  Status : Str
  SSHEnabled : Bool
  HTTPSEnabled : Bool
  PortMap : Int → Option Int

/-- The literal "running". -/
def runningStr : Str := ['r', 'u', 'n', 'n', 'i', 'n', 'g']

/-- Model of `Router.Resolve`: cache hit plus `status == "running"` and
a non-empty external IP, else `ErrNotFound`. -/
def Resolve (cache : Str → Option Container) (containerID : Str) :
    Except RouterErr Container :=
  match cache containerID with
  | some c =>
    if c.ExternalIP ≠ [] ∧ c.Status = runningStr then .ok c else .error .notFound
  | none => .error .notFound

/-- Model of `extractContainerID`: count the dots and find the first;
require at least two dots and a non-empty first label. -/
def extractContainerID (hostname : Str) : Str :=
  let dots := hostname.count '.'
  let firstDot : Int :=
    match hostname.findIdx? (fun c => c = '.') with
    | some i => (i : Int)
    | none => -1
  if dots < 2 ∨ firstDot ≤ 0 then []
  else hostname.take firstDot.toNat

/-- Model of `Router.ResolveByHostname`. -/
def ResolveByHostname (cache : Str → Option Container) (hostname : Str) :
    Except RouterErr Container :=
  let containerID := extractContainerID hostname
  if containerID = [] then .error .notFound
  else Resolve cache containerID

/-- Model of `Router.ResolveSSH`: `Resolve` plus the `ssh_enabled` gate. -/
def ResolveSSH (cache : Str → Option Container) (containerID : Str) :
    Except RouterErr Container :=
  match Resolve cache containerID with
  | .error e => .error e
  | .ok c => if c.SSHEnabled then .ok c else .error .protocolBlocked

/-- Model of `Router.ResolveHTTP`: `ResolveByHostname` plus the
`port_map[ingressPort]` requirement. -/
def ResolveHTTP (cache : Str → Option Container) (hostname : Str) (ingressPort : Int) :
    Except RouterErr (Container × Int) :=
  match ResolveByHostname cache hostname with
  | .error e => .error e
  | .ok c =>
    match c.PortMap ingressPort with
    | none => .error .protocolBlocked
    | some targetPort => .ok (c, targetPort)

/-- Model of `Router.ResolveStaticRoute` (over a present route table):
delegate to the radix lookup; apply prefix stripping when the matched
route asks for it and its prefix is not "/". Returns the updated table
(the lookup may touch the cache). -/
def ResolveStaticRoute (t : RouteTable) (host path : Str) :
    Except RouterErr (StaticRoute × Str) × RouteTable :=
  match t.lookupT host path with
  | ((none, _), t') => (.error .noRoute, t')
  | ((some route, remaining), t') =>
    let targetPath :=
      if route.StripPrefix ∧ route.PathPrefix ≠ ['/'] then
        if remaining = [] then ['/'] else remaining
      else path
    (.ok (route, targetPath), t')

/-- The protocol decision of `Server.handleMulti`: which handler a
connection's peeked bytes are routed to (`closed` is the default
branch that closes the connection). -/
inductive Proto : Type where
  | ssh
  | tls
  | http
  | closed
deriving DecidableEq, Repr

/-- The bytes of `"SSH-"`. -/
def sshPrefix : List Nat := [83, 83, 72, 45]

/-- The byte strings of `"GET "`, `"POST"`, `"PUT "`, `"HEAD"`, `"DELE"`,
`"OPTI"`, `"PATC"`, `"CONN"`, `"TRAC"` from `isHTTPMethod`. -/
def httpMethods : List (List Nat) :=
  [[71, 69, 84, 32], [80, 79, 83, 84], [80, 85, 84, 32], [72, 69, 65, 68],
   [68, 69, 76, 69], [79, 80, 84, 73], [80, 65, 84, 67], [67, 79, 78, 78],
   [84, 82, 65, 67]]

/-- Model of `isHTTPMethod`: the first 4 bytes equal one of the listed
method strings; fewer than 4 bytes never match. -/
def isHTTPMethod (buf : List Nat) : Bool :=
  if buf.length < 4 then false
  else httpMethods.any (fun m => buf.take 4 = m)

/-- Model of the protocol switch in `Server.handleMulti` over the peeked
bytes: `"SSH-"` prefix, then first byte `0x16`, then an HTTP method,
else close. -/
def classifyBytes (buf : List Nat) : Proto :=
  if 4 ≤ buf.length ∧ buf.take 4 = sshPrefix then .ssh
  else if buf.head? = some 22 then .tls
  else if isHTTPMethod buf then .http
  else .closed

/-- Model of the ingress-port normalization in `Server.handleHTTP`: the
local TCP port with only `8080` mapped to `80`. -/
def normalizeHTTPIngress (localPort : Int) : Int :=
  if localPort = 8080 then 80 else localPort

/-- Model of the ingress-port normalization in `Server.handleTLS`: the
local TCP port with only `8443` mapped to `443`. -/
def normalizeTLSIngress (localPort : Int) : Int :=
  if localPort = 8443 then 443 else localPort

/-- The normalization claimed by the spec for the plain-HTTP handler:
`8080` to `80` and `8443` to `443`, every other port as-is (spec-side
definition, for comparison with `normalizeHTTPIngress`). -/
def specIngressNorm (p : Int) : Int :=
  if p = 8080 then 80 else if p = 8443 then 443 else p

/-- Model of `strings.LastIndex(l, c)` for a single character: the index
of the last occurrence, `none` for Go's `-1`. -/
def lastIndexOf : Str → Char → Option Nat
  | [], _ => none
  | a :: rest, c =>
    match lastIndexOf rest c with
    | some i => some (i + 1)
    | none => if a = c then some 0 else none

/-- The literal "root". -/
def rootStr : Str := ['r', 'o', 'o', 't']

/-- Model of the username split in `Server.handleSSH`: split on the last
`'.'` into `(target_user, container_id)`; without a dot the target user
defaults to "root" and the whole username is the container id. -/
def parseSSHUsername (username : Str) : Str × Str :=
  match lastIndexOf username '.' with
  | none => (rootStr, username)
  | some idx => (username.take idx, username.drop (idx + 1))

/-- What `handleSSH` does after the handshake, observably: close, or
dial a backend address with a target user (authenticating with the
gateway's client key). -/
inductive SSHOutcome : Type where
  | closeConn
  | dial (addr : Str) (user : Str)
deriving DecidableEq, Repr

/-- The backend address `lb.<namespace>.svc.cluster.local:22` dialed by
`handleSSH`. -/
def sshBackendAddr (ns : Str) : Str :=
  ['l', 'b', '.'] ++ ns ++
    ['.', 's', 'v', 'c', '.', 'c', 'l', 'u', 's', 't', 'e', 'r',
     '.', 'l', 'o', 'c', 'a', 'l', ':', '2', '2']

/-- Model of the routing decision of `Server.handleSSH`: parse the
username, resolve the container with the SSH gate, close on failure,
dial the namespace service as the target user on success. -/
def sshDecision (cache : Str → Option Container) (username : Str) :
    SSHOutcome :=
  let tu := (parseSSHUsername username).1
  let cid := (parseSSHUsername username).2
  match ResolveSSH cache cid with
  | .error _ => .closeConn
  | .ok c => .dial (sshBackendAddr c.Namespace) tu

/-- The scan of `strings.Replace(s, pat, rep, 1)`: replace the leftmost
occurrence of `pat`, leave the string unchanged when there is none. -/
def replaceOnceGo (pat rep : Str) : Str → Str
  | [] => []
  | a :: rest =>
    if pat <+: (a :: rest) then rep ++ (a :: rest).drop pat.length
    else a :: replaceOnceGo pat rep rest

/-- Model of `strings.Replace(s, pat, rep, 1)` (an empty pattern inserts
`rep` once at the front, as in Go). -/
def replaceOnce (s pat rep : Str) : Str :=
  if pat = [] then rep ++ s else replaceOnceGo pat rep s

/-- Model of `rewriteRequestPath`: split at the first newline, apply the
two single-occurrence replacements (space-delimited, then
question-mark-delimited) to the request line, keep the remainder; a
header block with no newline is returned unchanged. -/
def rewriteRequestPath (headers oldPath newPath : Str) : Str :=
  match headers.findIdx? (fun c => c = '\n') with
  | none => headers
  | some idx =>
    let requestLine := headers.take idx
    let rest := headers.drop idx
    let l1 := replaceOnce requestLine (' ' :: oldPath ++ [' '])
      (' ' :: newPath ++ [' '])
    let l2 := replaceOnce l1 (' ' :: oldPath ++ ['?'])
      (' ' :: newPath ++ ['?'])
    l2 ++ rest

/-- Big-endian 16-bit read `int(b0)<<8 | int(b1)` of the TLS parser
(for byte values below 256 the bit-or is this addition). -/
def be16 (hi lo : Nat) : Nat := hi * 256 + lo

/-- Model of `isValidHostname`: length 1..255, every byte in
`[0x20, 0x7e]`, and at least one `'.'` (byte 46). -/
def isValidHostname (h : List Nat) : Bool :=
  if h.length = 0 ∨ 255 < h.length then false
  else if h.any (fun c => c < 32 ∨ 126 < c) then false
  else h.contains 46

/-- The entry loop of `parseSNIExtension`: while at least 3 bytes
remain, read name type and 2-byte name length, fail on truncation,
return the validated hostname on name type 0, else skip the name. -/
def sniLoop : List Nat → Option (List Nat)
  | t :: l1 :: l2 :: rest =>
    if rest.length < be16 l1 l2 then none
    else if t = 0 then
      if isValidHostname (rest.take (be16 l1 l2)) then
        some (rest.take (be16 l1 l2))
      else none
    else sniLoop (rest.drop (be16 l1 l2))
  | _ => none
termination_by d => d.length
decreasing_by
  simp only [List.length_drop, List.length_cons]
  omega

/-- Model of `parseSNIExtension`: 2-byte list length checked against the
remaining bytes, then the entry loop over all remaining bytes. -/
def parseSNIExtension (data : List Nat) : Option (List Nat) :=
  match data with
  | d0 :: d1 :: rest =>
    if rest.length < be16 d0 d1 then none
    else sniLoop rest
  | _ => none

/-- The extension loop of `extractSNI`: while at least 4 bytes remain,
read type and data length, fail on truncation, parse the SNI extension
on type 0, else skip the data. -/
def extLoop : List Nat → Option (List Nat)
  | t0 :: t1 :: d0 :: d1 :: rest =>
    if rest.length < be16 d0 d1 then none
    else if be16 t0 t1 = 0 then parseSNIExtension (rest.take (be16 d0 d1))
    else extLoop (rest.drop (be16 d0 d1))
  | _ => none
termination_by d => d.length
decreasing_by
  simp only [List.length_drop, List.length_cons]
  omega

/-- Model of `extractSNI`: header checks, fixed skips (4-byte handshake
header, 2-byte version plus 32-byte random), the three length-prefixed
skips (session id, cipher suites, compression methods), the extensions
length check, then the extension loop. -/
def extractSNI (payload : List Nat) : Option (List Nat) :=
  if payload.length < 4 then none
  else if payload.head? ≠ some 1 then none
  else
    let p1 := payload.drop 4
    if p1.length < 34 then none
    else
      match p1.drop 34 with
      | [] => none
      | sidLen :: p3 =>
        if p3.length < sidLen then none
        else
          match p3.drop sidLen with
          | c0 :: c1 :: p5 =>
            if p5.length < be16 c0 c1 then none
            else
              match p5.drop (be16 c0 c1) with
              | [] => none
              | compLen :: p7 =>
                if p7.length < compLen then none
                else
                  match p7.drop compLen with
                  | e0 :: e1 :: p9 =>
                    if p9.length < be16 e0 e1 then none
                    else extLoop p9
                  | _ => none
          | _ => none

/-- Big-endian 2-byte encoding of a length field. -/
def enc16 (n : Nat) : List Nat := [n / 256, n % 256]

/-- One serialized TLS extension: 2-byte type, 2-byte data length,
data. -/
def encExt (ty : Nat) (data : List Nat) : List Nat :=
  enc16 ty ++ enc16 data.length ++ data

/-- A serialized list of extensions. -/
def encExts : List (Nat × List Nat) → List Nat
  | [] => []
  | x :: xs => encExt x.1 x.2 ++ encExts xs

/-- One serialized SNI entry: 1-byte name type, 2-byte name length,
name. -/
def encSNIEntry (ty : Nat) (name : List Nat) : List Nat :=
  ty :: enc16 name.length ++ name

/-- A serialized list of SNI entries. -/
def encSNIEntries : List (Nat × List Nat) → List Nat
  | [] => []
  | e :: es => encSNIEntry e.1 e.2 ++ encSNIEntries es

/-- The data of a well-formed SNI extension: the entries of `pre`
followed by a final hostname entry of name type 0, prefixed with the
2-byte total length. -/
def mkSNIExtData (pre : List (Nat × List Nat)) (h : List Nat) : List Nat :=
  enc16 (encSNIEntries pre ++ encSNIEntry 0 h).length ++
    (encSNIEntries pre ++ encSNIEntry 0 h)

/-- A well-formed ClientHello handshake payload: type byte 1, 3-byte
length, version, random, session id, cipher suites and compression
methods with correct length prefixes, then the extensions `preExts`
followed by an SNI extension (type 0) carrying `pre` and the hostname
entry for `h`. -/
def mkClientHello (ver rand sid ciphers comps : List Nat)
    (preExts pre : List (Nat × List Nat)) (h : List Nat) : List Nat :=
  let exts := encExts preExts ++ encExt 0 (mkSNIExtData pre h)
  let body := ver ++ (rand ++ (sid.length :: (sid ++
    (enc16 ciphers.length ++ (ciphers ++ (comps.length :: (comps ++
    (enc16 exts.length ++ exts))))))))
  1 :: body.length / 65536 :: body.length / 256 % 256 ::
    body.length % 256 :: body

/-! ### Basic lemmas about the radix-tree helpers -/

@[simp] theorem findChild_nil (b : Char) : findChild [] b = none := rfl

theorem findChild_cons (c : RNode) (cs : List RNode) (b : Char) :
    findChild (c :: cs) b =
      if c.pfx.head? = some b then some c else findChild cs b := by
  simp only [findChild, List.find?_cons]
  by_cases h : c.pfx.head? = some b <;> simp [h]

@[simp] theorem findNR_nil (n : RNode) : findNR n [] = n.route := by
  cases n; rw [findNR]

theorem findNR_cons (n : RNode) (b : Char) (rest : Str) :
    findNR n (b :: rest) =
      match findChild n.children b with
      | none => none
      | some c =>
        if c.pfx <+: (b :: rest) then findNR c ((b :: rest).drop c.pfx.length)
        else none := by
  cases n with
  | mk p r cs =>
    rw [findNR]
    split <;> rename_i hfc <;> simp only [RNode.children_mk] at hfc <;> simp [hfc]

theorem findNR_cons_some {n : RNode} {b : Char} {rest : Str} {c : RNode}
    (h : findChild n.children b = some c) :
    findNR n (b :: rest) =
      if c.pfx <+: (b :: rest) then findNR c ((b :: rest).drop c.pfx.length)
      else none := by
  rw [findNR_cons, h]

theorem findNR_cons_none {n : RNode} {b : Char} {rest : Str}
    (h : findChild n.children b = none) :
    findNR n (b :: rest) = none := by
  rw [findNR_cons, h]

@[simp] theorem lookupStep_nil (n : RNode) (best : Option StaticRoute) :
    lookupStep n [] best = (best, []) := by
  cases n; rw [lookupStep]

theorem lookupStep_cons (n : RNode) (b : Char) (rest : Str)
    (best : Option StaticRoute) :
    lookupStep n (b :: rest) best =
      match findChild n.children b with
      | none => (best, b :: rest)
      | some c =>
        if c.pfx <+: (b :: rest) then
          lookupStep c ((b :: rest).drop c.pfx.length)
            (match c.route with | some r => some r | none => best)
        else (best, b :: rest) := by
  cases n with
  | mk p r cs =>
    rw [lookupStep]
    split <;> rename_i hfc <;> simp only [RNode.children_mk] at hfc <;> simp [hfc]

@[simp] theorem commonPrefix_nil_left (b : Str) : commonPrefix [] b = 0 := by
  cases b <;> rfl

@[simp] theorem commonPrefix_nil_right (a : Str) : commonPrefix a [] = 0 := by
  cases a <;> rfl

theorem commonPrefix_cons (x y : Char) (xs ys : Str) :
    commonPrefix (x :: xs) (y :: ys) =
      if x = y then commonPrefix xs ys + 1 else 0 := rfl

theorem commonPrefix_le_left (a b : Str) : commonPrefix a b ≤ a.length := by
  induction a generalizing b with
  | nil => simp
  | cons x xs ih =>
    cases b with
    | nil => simp
    | cons y ys =>
      by_cases h : x = y
      · simpa [commonPrefix_cons, h] using ih ys
      · simp [commonPrefix_cons, h]

theorem commonPrefix_le_right (a b : Str) : commonPrefix a b ≤ b.length := by
  induction a generalizing b with
  | nil => simp
  | cons x xs ih =>
    cases b with
    | nil => simp
    | cons y ys =>
      by_cases h : x = y
      · simpa [commonPrefix_cons, h] using ih ys
      · simp [commonPrefix_cons, h]

theorem commonPrefix_take_eq (a b : Str) :
    a.take (commonPrefix a b) = b.take (commonPrefix a b) := by
  induction a generalizing b with
  | nil => simp
  | cons x xs ih =>
    cases b with
    | nil => simp
    | cons y ys =>
      by_cases h : x = y
      · simp [commonPrefix_cons, h, ih ys]
      · simp [commonPrefix_cons, h]

theorem commonPrefix_eq_right (a b : Str) (h : commonPrefix a b = b.length) :
    b <+: a := by
  induction a generalizing b with
  | nil =>
    cases b with
    | nil => exact List.nil_prefix
    | cons y ys => simp at h
  | cons x xs ih =>
    cases b with
    | nil => exact List.nil_prefix
    | cons y ys =>
      by_cases hxy : x = y
      · simp only [commonPrefix_cons, if_pos hxy, List.length_cons] at h
        subst hxy
        obtain ⟨t, ht⟩ := ih ys (by omega)
        exact ⟨t, by rw [List.cons_append, ht]⟩
      · simp [commonPrefix_cons, hxy] at h

theorem commonPrefix_of_prefix (a b : Str) (h : b <+: a) :
    commonPrefix a b = b.length := by
  induction b generalizing a with
  | nil => simp
  | cons y ys ih =>
    obtain ⟨t, ht⟩ := h
    subst ht
    simp [commonPrefix_cons, ih (ys ++ t) (List.prefix_append ys t)]

theorem commonPrefix_disagree (a b : Str)
    (ha : commonPrefix a b < a.length) (hb : commonPrefix a b < b.length) :
    (a.drop (commonPrefix a b)).head? ≠ (b.drop (commonPrefix a b)).head? := by
  induction a generalizing b with
  | nil => simp at ha
  | cons x xs ih =>
    cases b with
    | nil => simp at hb
    | cons y ys =>
      by_cases h : x = y
      · simp only [commonPrefix_cons, if_pos h, List.length_cons] at ha hb ⊢
        simpa using ih ys (by omega) (by omega)
      · simpa [commonPrefix_cons, h] using h

theorem prefix_drop_eq {s w : Str} (h : s <+: w) :
    s ++ w.drop s.length = w := by
  obtain ⟨t, rfl⟩ := h
  simp

theorem drop_append_len {α : Type} (s t : List α) (j : Nat) :
    (s ++ t).drop (s.length + j) = t.drop j := by
  induction s with
  | nil => simp
  | cons x xs ih => simpa [Nat.succ_add] using ih

theorem prefix_append_cancel {s a b : Str} : (s ++ a <+: s ++ b) ↔ (a <+: b) := by
  induction s with
  | nil => simp
  | cons x xs ih => simpa using ih

theorem eq_iff_drop_eq {s w q : Str} (hw : s <+: w) (hq : s <+: q) :
    w = q ↔ w.drop s.length = q.drop s.length := by
  constructor
  · intro h; rw [h]
  · intro h
    rw [← prefix_drop_eq hw, ← prefix_drop_eq hq, h]

theorem prefix_of_prefix_le {s w q : Str} (hw : s <+: q) (hq : w <+: q)
    (hl : s.length ≤ w.length) : s <+: w := by
  obtain ⟨t, rfl⟩ := hw
  obtain ⟨u, hu⟩ := hq
  have : w = (s ++ t).take w.length := by
    rw [← hu]; simp
  rw [this, List.take_append_eq_append_take]
  have : s.take w.length = s := List.take_of_length_le (by omega)
  rw [this]
  exact List.prefix_append _ _

theorem findNR_leaf (p : Str) (r : StaticRoute) (w : Str) :
    findNR (RNode.mk p (some r) []) w = if w = [] then some r else none := by
  cases w with
  | nil => simp
  | cons b rest => simp [findNR_cons]

theorem findNR_root_irrel (p p2 : Str) (r : Option StaticRoute)
    (cs : List RNode) (w : Str) :
    findNR (RNode.mk p r cs) w = findNR (RNode.mk p2 r cs) w := by
  cases w with
  | nil => simp
  | cons b rest =>
    rw [findNR_cons, findNR_cons]
    simp

theorem findChild_none_not {cs : List RNode} {b : Char}
    (h : findChild cs b = none) {c : RNode} (hc : c ∈ cs) :
    c.pfx.head? ≠ some b := by
  induction cs with
  | nil => simp at hc
  | cons c0 cs0 ih =>
    rw [findChild_cons] at h
    by_cases h0 : c0.pfx.head? = some b
    · simp [h0] at h
    · rcases List.mem_cons.mp hc with hc | hc
      · exact hc ▸ h0
      · exact ih (by simpa [h0] using h) hc

theorem findChild_append (cs ds : List RNode) (b : Char) :
    findChild (cs ++ ds) b =
      match findChild cs b with
      | some c => some c
      | none => findChild ds b := by
  induction cs with
  | nil => simp
  | cons c cs0 ih =>
    by_cases h : c.pfx.head? = some b <;>
      simp [findChild_cons, h, ih]

theorem setChild_of_none {cs : List RNode} {b : Char} {nc : RNode}
    (h : findChild cs b = none) : setChild cs b nc = cs := by
  induction cs with
  | nil => rfl
  | cons c0 cs0 ih =>
    rw [findChild_cons] at h
    by_cases h0 : c0.pfx.head? = some b
    · simp [h0] at h
    · simp only [setChild, if_neg h0]
      rw [ih (by simpa [h0] using h)]

theorem findChild_setChild_self {cs : List RNode} {b : Char} {c nc : RNode}
    (hf : findChild cs b = some c) (hnc : nc.pfx.head? = some b) :
    findChild (setChild cs b nc) b = some nc := by
  induction cs with
  | nil => simp [findChild] at hf
  | cons c0 cs0 ih =>
    rw [findChild_cons] at hf
    by_cases h0 : c0.pfx.head? = some b
    · simp [setChild, h0, findChild_cons, hnc]
    · simp only [setChild, if_neg h0]
      rw [findChild_cons, if_neg h0]
      exact ih (by simpa [h0] using hf)

theorem findChild_setChild_ne {cs : List RNode} {b bq : Char} {nc : RNode}
    (hnc : nc.pfx.head? = some b) (hb : bq ≠ b) :
    findChild (setChild cs b nc) bq = findChild cs bq := by
  induction cs with
  | nil => rfl
  | cons c0 cs0 ih =>
    by_cases h0 : c0.pfx.head? = some b
    · simp only [setChild, if_pos h0]
      rw [findChild_cons, findChild_cons]
      have h1 : ¬ nc.pfx.head? = some bq := by
        rw [hnc]; simpa using fun h => hb h.symm
      have h2 : ¬ c0.pfx.head? = some bq := by
        rw [h0]; simpa using fun h => hb h.symm
      simp [h1, h2]
    · simp only [setChild, if_neg h0]
      rw [findChild_cons, findChild_cons, ih]

theorem insertN_pfx (n : RNode) (q : Str) (r : StaticRoute) :
    (insertN n q r).pfx = n.pfx := by
  cases n with
  | mk np nr cs =>
    cases q with
    | nil => rw [insertN]; simp
    | cons b rest =>
      rw [insertN]
      split
      · rfl
      · rename_i c hfc
        by_cases hcom : commonPrefix (b :: rest) c.pfx = c.pfx.length <;>
          simp [hcom]

theorem insertN_route (n : RNode) (q : Str) (r : StaticRoute) :
    (insertN n q r).route = if q = [] then some r else n.route := by
  cases n with
  | mk np nr cs =>
    cases q with
    | nil => rw [insertN]; simp
    | cons b rest =>
      rw [insertN]
      split
      · rfl
      · rename_i c hfc
        by_cases hcom : commonPrefix (b :: rest) c.pfx = c.pfx.length <;>
          simp [hcom]

theorem insertN_nil (npfx : Str) (nr : Option StaticRoute) (cs : List RNode)
    (r : StaticRoute) :
    insertN (RNode.mk npfx nr cs) [] r = RNode.mk npfx (some r) cs := by
  rw [insertN]

theorem insertN_cons_none {cs : List RNode} {b : Char}
    (npfx : Str) (nr : Option StaticRoute) (rest : Str) (r : StaticRoute)
    (h : findChild cs b = none) :
    insertN (RNode.mk npfx nr cs) (b :: rest) r =
      RNode.mk npfx nr (cs ++ [RNode.mk (b :: rest) (some r) []]) := by
  rw [insertN]
  split
  · rfl
  · rename_i c heq
    rw [h] at heq
    cases heq

theorem insertN_cons_descend {cs : List RNode} {b : Char} {c : RNode}
    (npfx : Str) (nr : Option StaticRoute) (rest : Str) (r : StaticRoute)
    (h : findChild cs b = some c)
    (hcom : commonPrefix (b :: rest) c.pfx = c.pfx.length) :
    insertN (RNode.mk npfx nr cs) (b :: rest) r =
      RNode.mk npfx nr
        (setChild cs b (insertN c ((b :: rest).drop c.pfx.length) r)) := by
  rw [insertN]
  split
  · rename_i heq; rw [h] at heq; cases heq
  · rename_i c2 heq
    rw [h] at heq
    injection heq with heq
    subst heq
    simp [hcom]

theorem insertN_cons_split {cs : List RNode} {b : Char} {c : RNode}
    (npfx : Str) (nr : Option StaticRoute) (rest : Str) (r : StaticRoute)
    (h : findChild cs b = some c)
    (hcom : ¬ commonPrefix (b :: rest) c.pfx = c.pfx.length) :
    insertN (RNode.mk npfx nr cs) (b :: rest) r =
      RNode.mk npfx nr
        (setChild cs b
          (RNode.mk ((b :: rest).take (commonPrefix (b :: rest) c.pfx))
            (if commonPrefix (b :: rest) c.pfx = (b :: rest).length then some r
             else none)
            ([RNode.mk (c.pfx.drop (commonPrefix (b :: rest) c.pfx)) c.route
                c.children] ++
              (if commonPrefix (b :: rest) c.pfx = (b :: rest).length then []
               else [RNode.mk ((b :: rest).drop (commonPrefix (b :: rest) c.pfx))
                  (some r) []])))) := by
  rw [insertN]
  split
  · rename_i heq; rw [h] at heq; cases heq
  · rename_i c2 heq
    rw [h] at heq
    injection heq with heq
    subst heq
    simp [hcom]

theorem take_cons_head {b : Char} {rest : Str} {k : Nat} (hk : 1 ≤ k) :
    ((b :: rest).take k).head? = some b := by
  cases k with
  | zero => omega
  | succ j => simp

theorem findNR_insert_append (npfx : Str) (nroute : Option StaticRoute)
    (cs : List RNode) (b : Char) (rest : Str) (r : StaticRoute)
    (h : findChild cs b = none) (w : Str) :
    findNR (RNode.mk npfx nroute (cs ++ [RNode.mk (b :: rest) (some r) []])) w =
      if w = b :: rest then some r
      else findNR (RNode.mk npfx nroute cs) w := by
  cases w with
  | nil => simp
  | cons bq wr =>
    rw [findNR_cons, findNR_cons]
    simp only [RNode.children_mk]
    rw [findChild_append]
    cases hfc : findChild cs bq with
    | some cq =>
      have hqb : bq ≠ b := by
        intro hh
        subst hh
        rw [h] at hfc
        cases hfc
      have hne : (bq :: wr : Str) ≠ b :: rest := by simp [hqb]
      simp [hne]
    | none =>
      by_cases hbb : bq = b
      · subst hbb
        have hleaf : findChild [RNode.mk (bq :: rest) (some r) []] bq
            = some (RNode.mk (bq :: rest) (some r) []) := by
          simp [findChild_cons]
        simp only [hleaf, RNode.pfx_mk]
        by_cases hpre : (bq :: rest : Str) <+: (bq :: wr)
        · rw [if_pos hpre, findNR_leaf]
          have hd := prefix_drop_eq hpre
          by_cases hx : (bq :: wr).drop (bq :: rest : Str).length = []
          · rw [if_pos hx]
            rw [hx, List.append_nil] at hd
            rw [if_pos hd.symm]
          · rw [if_neg hx]
            have hne : (bq :: wr : Str) ≠ bq :: rest := by
              intro he
              exact hx (by rw [he]; exact List.drop_length _)
            rw [if_neg hne]
        · have hne : (bq :: wr : Str) ≠ bq :: rest := by
            intro he
            exact hpre (he ▸ List.prefix_refl _)
          rw [if_neg hpre, if_neg hne]
      · have hne : (bq :: wr : Str) ≠ b :: rest := by simp [hbb]
        have hleaf : findChild [RNode.mk (b :: rest) (some r) []] bq = none := by
          have hnb : ¬ b = bq := fun hh => hbb hh.symm
          simp [findChild_cons, hnb]
        simp [hleaf, hne]

theorem findNR_remk (c : RNode) (p2 : Str) (w : Str) :
    findNR (RNode.mk p2 c.route c.children) w = findNR c w := by
  cases c with
  | mk cp cr cc => simpa using findNR_root_irrel p2 cp cr cc w

theorem head?_eq_of_pfx {u v : Str} (hu : u ≠ []) (h : u <+: v) :
    u.head? = v.head? := by
  obtain ⟨t, rfl⟩ := h
  cases u with
  | nil => exact absurd rfl hu
  | cons x xs => simp

theorem findNR_insert_split (npfx : Str) (nroute : Option StaticRoute)
    (cs : List RNode) (b : Char) (rest : Str) (r : StaticRoute) (c : RNode)
    (h : findChild cs b = some c)
    (hcom : ¬ commonPrefix (b :: rest) c.pfx = c.pfx.length) (w : Str) :
    findNR (RNode.mk npfx nroute
      (setChild cs b
        (RNode.mk ((b :: rest).take (commonPrefix (b :: rest) c.pfx))
          (if commonPrefix (b :: rest) c.pfx = (b :: rest).length then some r
           else none)
          ([RNode.mk (c.pfx.drop (commonPrefix (b :: rest) c.pfx)) c.route
              c.children] ++
            (if commonPrefix (b :: rest) c.pfx = (b :: rest).length then []
             else [RNode.mk ((b :: rest).drop (commonPrefix (b :: rest) c.pfx))
                (some r) []]))))) w =
      if w = b :: rest then some r
      else findNR (RNode.mk npfx nroute cs) w := by
  have hhead := findChild_head h
  have hk1 : 1 ≤ commonPrefix (b :: rest) c.pfx := commonPrefix_pos hhead
  have hkq : commonPrefix (b :: rest) c.pfx ≤ (b :: rest).length :=
    commonPrefix_le_left _ _
  have hkc : commonPrefix (b :: rest) c.pfx < c.pfx.length :=
    lt_of_le_of_ne (commonPrefix_le_right _ _) hcom
  have htake : (b :: rest).take (commonPrefix (b :: rest) c.pfx)
      = c.pfx.take (commonPrefix (b :: rest) c.pfx) := commonPrefix_take_eq _ _
  have hshead : ((b :: rest).take (commonPrefix (b :: rest) c.pfx)).head? = some b :=
    take_cons_head hk1
  have hspre_q : (b :: rest).take (commonPrefix (b :: rest) c.pfx) <+: (b :: rest) :=
    List.take_prefix _ _
  have hspre_c : (b :: rest).take (commonPrefix (b :: rest) c.pfx) <+: c.pfx := by
    rw [htake]; exact List.take_prefix _ _
  have hslen : ((b :: rest).take (commonPrefix (b :: rest) c.pfx)).length
      = commonPrefix (b :: rest) c.pfx := by
    rw [List.length_take]; omega
  have hcdecomp : ((b :: rest).take (commonPrefix (b :: rest) c.pfx)) ++
      c.pfx.drop (commonPrefix (b :: rest) c.pfx) = c.pfx := by
    rw [htake]; exact List.take_append_drop _ _
  have hCne : c.pfx.drop (commonPrefix (b :: rest) c.pfx) ≠ [] := by
    intro hh
    have := congrArg List.length hh
    simp only [List.length_drop, List.length_nil] at this
    omega
  cases w with
  | nil => simp
  | cons bq wr =>
    by_cases hqb : bq = b
    case neg =>
      rw [findNR_cons, findNR_cons]
      simp only [RNode.children_mk]
      rw [findChild_setChild_ne (by simpa using hshead) hqb]
      have hne : (bq :: wr : Str) ≠ b :: rest := by simp [hqb]
      rw [if_neg hne]
    case pos =>
      subst hqb
      rw [findNR_cons, findNR_cons]
      simp only [RNode.children_mk]
      rw [findChild_setChild_self h (by simpa using hshead), h]
      simp only [RNode.pfx_mk]
      rw [hslen]
      by_cases hsw : (bq :: rest).take (commonPrefix (bq :: rest) c.pfx) <+: (bq :: wr)
      case neg =>
        rw [if_neg hsw]
        have hwq : (bq :: wr : Str) ≠ bq :: rest := by
          intro he
          exact hsw (he ▸ hspre_q)
        have hcp : ¬ c.pfx <+: (bq :: wr) := by
          intro hp
          exact hsw (hspre_c.trans hp)
        rw [if_neg hwq, if_neg hcp]
      case pos =>
        rw [if_pos hsw]
        have hwdecomp : ((bq :: rest).take (commonPrefix (bq :: rest) c.pfx)) ++
            (bq :: wr).drop (commonPrefix (bq :: rest) c.pfx) = bq :: wr := by
          have := prefix_drop_eq hsw
          rwa [hslen] at this
        cases ht : (bq :: wr).drop (commonPrefix (bq :: rest) c.pfx) with
        | nil =>
          rw [ht, List.append_nil] at hwdecomp
          simp only [findNR_nil, RNode.route_mk]
          by_cases hkf : commonPrefix (bq :: rest) c.pfx = (bq :: rest).length
          case pos =>
            rw [if_pos hkf]
            have hsq : (bq :: rest).take (commonPrefix (bq :: rest) c.pfx)
                = bq :: rest := by
              rw [hkf]; exact List.take_length _
            rw [if_pos (by rw [← hwdecomp, hsq])]
          case neg =>
            rw [if_neg hkf]
            have hwlen : (bq :: wr : Str).length = commonPrefix (bq :: rest) c.pfx := by
              rw [← hwdecomp, hslen]
            have hwq : (bq :: wr : Str) ≠ bq :: rest := by
              intro he
              have h2 := congrArg List.length he
              rw [hwlen] at h2
              exact hkf h2
            rw [if_neg hwq]
            have hcp : ¬ c.pfx <+: (bq :: wr) := by
              intro hp
              have := hp.length_le
              omega
            rw [if_neg hcp]
        | cons d tl =>
          rw [ht] at hwdecomp
          rw [findNR_cons]
          simp only [RNode.children_mk]
          have hcpiff : (c.pfx <+: (bq :: wr)) ↔
              (c.pfx.drop (commonPrefix (bq :: rest) c.pfx) <+: (d :: tl)) := by
            constructor
            · intro hp
              have h1 : ((bq :: rest).take (commonPrefix (bq :: rest) c.pfx)) ++
                  c.pfx.drop (commonPrefix (bq :: rest) c.pfx) <+:
                  ((bq :: rest).take (commonPrefix (bq :: rest) c.pfx)) ++ (d :: tl) := by
                rw [hcdecomp, hwdecomp]
                exact hp
              exact prefix_append_cancel.mp h1
            · intro hp
              have h1 : ((bq :: rest).take (commonPrefix (bq :: rest) c.pfx)) ++
                  c.pfx.drop (commonPrefix (bq :: rest) c.pfx) <+:
                  ((bq :: rest).take (commonPrefix (bq :: rest) c.pfx)) ++ (d :: tl) :=
                prefix_append_cancel.mpr hp
              rw [hcdecomp, hwdecomp] at h1
              exact h1
          by_cases hkf : commonPrefix (bq :: rest) c.pfx = (bq :: rest).length
          case pos =>
            simp only [if_pos hkf, List.append_nil]
            have hwq : (bq :: wr : Str) ≠ bq :: rest := by
              intro he
              have h1 := congrArg List.length hwdecomp
              simp only [List.length_append, hslen, List.length_cons] at h1
              have h2 := congrArg List.length he
              simp only [List.length_cons] at h2
              have h3 : commonPrefix (bq :: rest) c.pfx = rest.length + 1 := by
                simpa using hkf
              omega
            rw [if_neg hwq]
            by_cases hCd : (c.pfx.drop (commonPrefix (bq :: rest) c.pfx)).head?
                = some d
            case pos =>
              have hfk : findChild
                  [RNode.mk (c.pfx.drop (commonPrefix (bq :: rest) c.pfx)) c.route
                    c.children] d
                  = some (RNode.mk (c.pfx.drop (commonPrefix (bq :: rest) c.pfx))
                      c.route c.children) := by
                rw [findChild_cons]
                simp only [RNode.pfx_mk, if_pos hCd]
              rw [hfk]
              simp only [RNode.pfx_mk]
              by_cases hcp : c.pfx <+: (bq :: wr)
              case pos =>
                rw [if_pos (hcpiff.mp hcp)]
                have hargs : (d :: tl).drop
                    (c.pfx.drop (commonPrefix (bq :: rest) c.pfx)).length
                    = (bq :: wr).drop c.pfx.length := by
                  rw [← hwdecomp]
                  have hlen2 : c.pfx.length =
                      ((bq :: rest).take (commonPrefix (bq :: rest) c.pfx)).length +
                      (c.pfx.drop (commonPrefix (bq :: rest) c.pfx)).length := by
                    rw [hslen]
                    simp only [List.length_drop]
                    omega
                  rw [hlen2, drop_append_len]
                rw [hargs, findNR_remk, if_pos hcp]
              case neg =>
                rw [if_neg (fun hh => hcp (hcpiff.mpr hh)), if_neg hcp]
            case neg =>
              have hfk : findChild
                  [RNode.mk (c.pfx.drop (commonPrefix (bq :: rest) c.pfx)) c.route
                    c.children] d = none := by
                rw [findChild_cons]
                simp only [RNode.pfx_mk, if_neg hCd, findChild_nil]
              rw [hfk]
              have hcp : ¬ c.pfx <+: (bq :: wr) := by
                intro hp
                exact hCd ((head?_eq_of_pfx hCne (hcpiff.mp hp)).trans (by simp))
              rw [if_neg hcp]
          case neg =>
            simp only [if_neg hkf, List.singleton_append]
            have hkq2 : commonPrefix (bq :: rest) c.pfx < (bq :: rest).length :=
              lt_of_le_of_ne hkq hkf
            have hLne : (bq :: rest).drop (commonPrefix (bq :: rest) c.pfx) ≠ [] := by
              intro hh
              have := congrArg List.length hh
              simp only [List.length_drop, List.length_nil] at this
              omega
            have hdis := commonPrefix_disagree (bq :: rest) c.pfx
              (by omega) (by omega)
            have hqdecomp : ((bq :: rest).take (commonPrefix (bq :: rest) c.pfx)) ++
                (bq :: rest).drop (commonPrefix (bq :: rest) c.pfx) = bq :: rest :=
              List.take_append_drop _ _
            have hwqiff : ((bq :: wr : Str) = bq :: rest) ↔
                ((d :: tl : Str) = (bq :: rest).drop (commonPrefix (bq :: rest) c.pfx)) := by
              constructor
              · intro he
                have h1 : ((bq :: rest).take (commonPrefix (bq :: rest) c.pfx)) ++
                    (d :: tl) =
                    ((bq :: rest).take (commonPrefix (bq :: rest) c.pfx)) ++
                    (bq :: rest).drop (commonPrefix (bq :: rest) c.pfx) := by
                  rw [hwdecomp, hqdecomp, he]
                exact List.append_cancel_left h1
              · intro he
                rw [← hwdecomp, he, hqdecomp]
            by_cases hCd : (c.pfx.drop (commonPrefix (bq :: rest) c.pfx)).head?
                = some d
            case pos =>
              have hwq : (bq :: wr : Str) ≠ bq :: rest := by
                intro he
                have h1 := hwqiff.mp he
                apply hdis
                rw [← h1, hCd]
                simp
              rw [if_neg hwq]
              have hfk : findChild
                  (RNode.mk (c.pfx.drop (commonPrefix (bq :: rest) c.pfx)) c.route
                      c.children ::
                    [RNode.mk ((bq :: rest).drop (commonPrefix (bq :: rest) c.pfx))
                      (some r) []]) d
                  = some (RNode.mk (c.pfx.drop (commonPrefix (bq :: rest) c.pfx))
                      c.route c.children) := by
                rw [findChild_cons]
                simp only [RNode.pfx_mk, if_pos hCd]
              rw [hfk]
              simp only [RNode.pfx_mk]
              by_cases hcp : c.pfx <+: (bq :: wr)
              case pos =>
                rw [if_pos (hcpiff.mp hcp)]
                have hargs : (d :: tl).drop
                    (c.pfx.drop (commonPrefix (bq :: rest) c.pfx)).length
                    = (bq :: wr).drop c.pfx.length := by
                  rw [← hwdecomp]
                  have hlen2 : c.pfx.length =
                      ((bq :: rest).take (commonPrefix (bq :: rest) c.pfx)).length +
                      (c.pfx.drop (commonPrefix (bq :: rest) c.pfx)).length := by
                    rw [hslen]
                    simp only [List.length_drop]
                    omega
                  rw [hlen2, drop_append_len]
                rw [hargs, findNR_remk, if_pos hcp]
              case neg =>
                rw [if_neg (fun hh => hcp (hcpiff.mpr hh)), if_neg hcp]
            case neg =>
              have hcp : ¬ c.pfx <+: (bq :: wr) := by
                intro hp
                exact hCd ((head?_eq_of_pfx hCne (hcpiff.mp hp)).trans (by simp))
              by_cases hLd : ((bq :: rest).drop (commonPrefix (bq :: rest) c.pfx)).head?
                  = some d
              case pos =>
                have hfk : findChild
                    (RNode.mk (c.pfx.drop (commonPrefix (bq :: rest) c.pfx)) c.route
                        c.children ::
                      [RNode.mk ((bq :: rest).drop (commonPrefix (bq :: rest) c.pfx))
                        (some r) []]) d
                    = some (RNode.mk
                        ((bq :: rest).drop (commonPrefix (bq :: rest) c.pfx))
                        (some r) []) := by
                  rw [findChild_cons]
                  simp only [RNode.pfx_mk, if_neg hCd]
                  rw [findChild_cons]
                  simp only [RNode.pfx_mk, if_pos hLd]
                rw [hfk]
                simp only [RNode.pfx_mk]
                by_cases hLw : (bq :: rest).drop (commonPrefix (bq :: rest) c.pfx)
                    <+: (d :: tl)
                case pos =>
                  rw [if_pos hLw, findNR_leaf]
                  by_cases hx : (d :: tl).drop
                      ((bq :: rest).drop (commonPrefix (bq :: rest) c.pfx)).length = []
                  case pos =>
                    rw [if_pos hx]
                    have hdt : (d :: tl : Str)
                        = (bq :: rest).drop (commonPrefix (bq :: rest) c.pfx) := by
                      have hdd := prefix_drop_eq hLw
                      rw [hx, List.append_nil] at hdd
                      exact hdd.symm
                    rw [if_pos (hwqiff.mpr hdt)]
                  case neg =>
                    rw [if_neg hx]
                    have hwq : (bq :: wr : Str) ≠ bq :: rest := by
                      intro he
                      apply hx
                      rw [hwqiff.mp he]
                      exact List.drop_length _
                    rw [if_neg hwq, if_neg hcp]
                case neg =>
                  rw [if_neg hLw]
                  have hwq : (bq :: wr : Str) ≠ bq :: rest := by
                    intro he
                    exact hLw ((hwqiff.mp he) ▸ List.prefix_refl _)
                  rw [if_neg hwq, if_neg hcp]
              case neg =>
                have hfk : findChild
                    (RNode.mk (c.pfx.drop (commonPrefix (bq :: rest) c.pfx)) c.route
                        c.children ::
                      [RNode.mk ((bq :: rest).drop (commonPrefix (bq :: rest) c.pfx))
                        (some r) []]) d = none := by
                  rw [findChild_cons]
                  simp only [RNode.pfx_mk, if_neg hCd]
                  rw [findChild_cons]
                  simp only [RNode.pfx_mk, if_neg hLd, findChild_nil]
                rw [hfk]
                have hwq : (bq :: wr : Str) ≠ bq :: rest := by
                  intro he
                  apply hLd
                  rw [← hwqiff.mp he]
                  simp
                rw [if_neg hwq, if_neg hcp]

/-- Insert/find characterization: inserting route `r` at path `q` sets
the stored route for `q` and changes nothing else. -/
theorem findNR_insertN (n : RNode) (q : Str) (r : StaticRoute) :
    ∀ w : Str, findNR (insertN n q r) w = if w = q then some r else findNR n w := by
  induction n, q, r using insertN.induct with
  | case1 npfx nroute cs r =>
    intro w
    rw [insertN_nil]
    cases w with
    | nil => simp
    | cons bq wr =>
      rw [if_neg (by simp : (bq :: wr : Str) ≠ [])]
      rw [findNR_cons, findNR_cons]
      simp
  | case2 npfx nroute cs b rest r h =>
    intro w
    rw [insertN_cons_none npfx nroute rest r h]
    exact findNR_insert_append npfx nroute cs b rest r h w
  | case3 npfx nroute cs b rest r c h common hcom ih =>
    intro w
    rw [insertN_cons_descend npfx nroute rest r h hcom]
    have hhead := findChild_head h
    have hpreq : c.pfx <+: (b :: rest) := commonPrefix_eq_right _ _ hcom
    rw [hcom] at ih
    cases w with
    | nil =>
      have hq : ([] : Str) ≠ b :: rest := by simp
      simp [hq]
    | cons bq wr =>
      by_cases hqb : bq = b
      case neg =>
        rw [findNR_cons, findNR_cons]
        simp only [RNode.children_mk]
        rw [findChild_setChild_ne (by rw [insertN_pfx]; exact hhead) hqb]
        have hne : (bq :: wr : Str) ≠ b :: rest := by simp [hqb]
        rw [if_neg hne]
      case pos =>
        subst hqb
        have hself : findChild
            (setChild cs bq (insertN c ((bq :: rest).drop c.pfx.length) r)) bq
            = some (insertN c ((bq :: rest).drop c.pfx.length) r) :=
          findChild_setChild_self h (by rw [insertN_pfx]; exact hhead)
        rw [findNR_cons_some (by simp only [RNode.children_mk]; exact hself),
          findNR_cons_some (by simp only [RNode.children_mk]; exact h)]
        rw [insertN_pfx]
        by_cases hpw : c.pfx <+: (bq :: wr)
        case pos =>
          rw [if_pos hpw, ih ((bq :: wr).drop c.pfx.length)]
          have hiff := eq_iff_drop_eq hpw hpreq
          by_cases heq : (bq :: wr : Str) = bq :: rest
          · rw [if_pos (hiff.mp heq), if_pos heq]
          · rw [if_neg (fun hh => heq (hiff.mpr hh)), if_neg heq, if_pos hpw]
        case neg =>
          rw [if_neg hpw]
          have hne : (bq :: wr : Str) ≠ bq :: rest := fun he => hpw (he ▸ hpreq)
          rw [if_neg hne, if_neg hpw]
  | case4 npfx nroute cs b rest r c h common hcom =>
    intro w
    rw [insertN_cons_split npfx nroute rest r h hcom]
    exact findNR_insert_split npfx nroute cs b rest r c h hcom w

/-! ### Characterizing the lookup descent via `findNR` -/

/-- Length of the longest nonempty prefix of `p` of length at most `m`
for which the exact descent finds a route (specification device). -/
def bestLenAux (n : RNode) (p : Str) : Nat → Option Nat
  | 0 => none
  | k + 1 =>
    if (findNR n (p.take (k + 1))).isSome then some (k + 1) else bestLenAux n p k

/-- The longest candidate length over the whole path. -/
def bestLen (n : RNode) (p : Str) : Option Nat := bestLenAux n p p.length

theorem bestLenAux_some {n : RNode} {p : Str} {m k : Nat}
    (h : bestLenAux n p m = some k) :
    1 ≤ k ∧ k ≤ m ∧ (findNR n (p.take k)).isSome := by
  induction m with
  | zero => simp [bestLenAux] at h
  | succ m ih =>
    by_cases hs : (findNR n (p.take (m + 1))).isSome
    · simp only [bestLenAux, if_pos hs, Option.some.injEq] at h
      subst h
      exact ⟨by omega, le_refl _, hs⟩
    · simp only [bestLenAux, if_neg hs] at h
      obtain ⟨h1, h2, h3⟩ := ih h
      exact ⟨h1, by omega, h3⟩

theorem bestLenAux_above {n : RNode} {p : Str} {m k : Nat}
    (h : bestLenAux n p m = some k) :
    ∀ j, k < j → j ≤ m → findNR n (p.take j) = none := by
  induction m with
  | zero => simp [bestLenAux] at h
  | succ m ih =>
    intro j hj1 hj2
    by_cases hs : (findNR n (p.take (m + 1))).isSome
    · simp only [bestLenAux, if_pos hs, Option.some.injEq] at h
      omega
    · simp only [bestLenAux, if_neg hs] at h
      by_cases hjm : j = m + 1
      · subst hjm
        exact Option.not_isSome_iff_eq_none.mp hs
      · exact ih h j hj1 (by omega)

theorem bestLenAux_none {n : RNode} {p : Str} {m : Nat}
    (h : bestLenAux n p m = none) :
    ∀ j, 1 ≤ j → j ≤ m → findNR n (p.take j) = none := by
  induction m with
  | zero => intro j h1 h2; omega
  | succ m ih =>
    intro j h1 h2
    by_cases hs : (findNR n (p.take (m + 1))).isSome
    · simp [bestLenAux, if_pos hs] at h
    · simp only [bestLenAux, if_neg hs] at h
      by_cases hjm : j = m + 1
      · subst hjm
        exact Option.not_isSome_iff_eq_none.mp hs
      · exact ih h j h1 (by omega)

theorem bestLenAux_of_none {n : RNode} {p : Str} {m : Nat}
    (h : ∀ j, 1 ≤ j → j ≤ m → findNR n (p.take j) = none) :
    bestLenAux n p m = none := by
  induction m with
  | zero => rfl
  | succ m ih =>
    have hs : ¬ (findNR n (p.take (m + 1))).isSome := by
      rw [h (m + 1) (by omega) (le_refl _)]
      simp
    simp only [bestLenAux, if_neg hs]
    exact ih fun j h1 h2 => h j h1 (by omega)

theorem bestLenAux_of_best {n : RNode} {p : Str} {m k : Nat}
    (hk1 : 1 ≤ k) (hk2 : k ≤ m) (hs : (findNR n (p.take k)).isSome)
    (habove : ∀ j, k < j → j ≤ m → findNR n (p.take j) = none) :
    bestLenAux n p m = some k := by
  induction m with
  | zero => omega
  | succ m ih =>
    by_cases hkm : k = m + 1
    · subst hkm
      simp only [bestLenAux, if_pos hs]
    · have hnone : findNR n (p.take (m + 1)) = none :=
        habove (m + 1) (by omega) (le_refl _)
      have hns : ¬ (findNR n (p.take (m + 1))).isSome := by
        rw [hnone]; simp
      simp only [bestLenAux, if_neg hns]
      exact ih (by omega) fun j hj1 hj2 => habove j hj1 (by omega)

theorem findNR_eq_of_head {n : RNode} {q : Str} {b : Char} {c : RNode}
    (hq : q.head? = some b) (h : findChild n.children b = some c) :
    findNR n q =
      if c.pfx <+: q then findNR c (q.drop c.pfx.length) else none := by
  cases q with
  | nil => simp at hq
  | cons x xs =>
    simp only [List.head?_cons, Option.some.injEq] at hq
    subst hq
    exact findNR_cons_some h

theorem findNR_none_of_head {n : RNode} {q : Str} {b : Char}
    (hq : q.head? = some b) (h : findChild n.children b = none) :
    findNR n q = none := by
  cases q with
  | nil => simp at hq
  | cons x xs =>
    simp only [List.head?_cons, Option.some.injEq] at hq
    subst hq
    exact findNR_cons_none h

theorem lookupStep_cons_none {n : RNode} {b : Char} {rest : Str}
    {best : Option StaticRoute} (h : findChild n.children b = none) :
    lookupStep n (b :: rest) best = (best, b :: rest) := by
  rw [lookupStep_cons, h]

theorem lookupStep_cons_some {n : RNode} {b : Char} {rest : Str}
    {best : Option StaticRoute} {c : RNode} (h : findChild n.children b = some c) :
    lookupStep n (b :: rest) best =
      if c.pfx <+: (b :: rest) then
        lookupStep c ((b :: rest).drop c.pfx.length)
          (match c.route with | some r => some r | none => best)
      else (best, b :: rest) := by
  rw [lookupStep_cons, h]

theorem findNR_take_small {n : RNode} {b : Char} {rest : Str} {c : RNode}
    (h : findChild n.children b = some c) (m : Nat)
    (hm1 : 1 ≤ m) (hm2 : m < c.pfx.length) :
    findNR n ((b :: rest).take m) = none := by
  rw [findNR_eq_of_head (take_cons_head hm1) h]
  have hno : ¬ c.pfx <+: (b :: rest).take m := by
    intro hpre
    have h1 := hpre.length_le
    rw [List.length_take] at h1
    have h2 : ((b :: rest).take m).length ≤ m := by
      rw [List.length_take]; omega
    rw [List.length_take] at h2
    omega
  rw [if_neg hno]

theorem findNR_take_pfx {n : RNode} {b : Char} {rest : Str} {c : RNode}
    (h : findChild n.children b = some c) (hp : c.pfx <+: (b :: rest)) :
    findNR n ((b :: rest).take c.pfx.length) = c.route := by
  have hhead := findChild_head h
  have hK1 : 1 ≤ c.pfx.length := head?_some_pos hhead
  have hceq : c.pfx = (b :: rest).take c.pfx.length :=
    List.prefix_iff_eq_take.mp hp
  rw [findNR_eq_of_head (take_cons_head hK1) h]
  rw [if_pos (hceq ▸ List.prefix_refl _)]
  have hdrop : ((b :: rest).take c.pfx.length).drop c.pfx.length = [] := by
    apply List.drop_eq_nil_of_le
    rw [List.length_take]
    omega
  rw [hdrop, findNR_nil]

theorem findNR_take_big {n : RNode} {b : Char} {rest : Str} {c : RNode}
    (h : findChild n.children b = some c) (hp : c.pfx <+: (b :: rest))
    (j : Nat) (hj : 1 ≤ j) :
    findNR n ((b :: rest).take (c.pfx.length + j)) =
      findNR c (((b :: rest).drop c.pfx.length).take j) := by
  have hhead := findChild_head h
  have hK1 : 1 ≤ c.pfx.length := head?_some_pos hhead
  have hq : c.pfx <+: (b :: rest).take (c.pfx.length + j) := by
    apply prefix_of_prefix_le hp (List.take_prefix _ _)
    rw [List.length_take]
    have := hp.length_le
    omega
  rw [findNR_eq_of_head (take_cons_head (by omega)) h, if_pos hq]
  congr 1
  exact (List.take_drop _ _ _).symm

/-- Composition of the best candidate length under one descent step. -/
theorem bestLen_descend {n : RNode} {b : Char} {rest : Str} {c : RNode}
    (h : findChild n.children b = some c) (hp : c.pfx <+: (b :: rest)) :
    bestLen n (b :: rest) =
      match bestLen c ((b :: rest).drop c.pfx.length) with
      | some j => some (c.pfx.length + j)
      | none => if (c.route).isSome then some c.pfx.length else none := by
  have hhead := findChild_head h
  have hK1 : 1 ≤ c.pfx.length := head?_some_pos hhead
  have hKlen : c.pfx.length ≤ (b :: rest).length := hp.length_le
  have hlen2 : ((b :: rest).drop c.pfx.length).length
      = (b :: rest).length - c.pfx.length := by simp
  cases hbl : bestLen c ((b :: rest).drop c.pfx.length) with
  | some j =>
    have hbl2 : bestLenAux c ((b :: rest).drop c.pfx.length)
        ((b :: rest).drop c.pfx.length).length = some j := hbl
    obtain ⟨hj1, hj2, hjs⟩ := bestLenAux_some hbl2
    rw [hlen2] at hj2
    show bestLenAux n (b :: rest) (b :: rest).length = some (c.pfx.length + j)
    apply bestLenAux_of_best
    · omega
    · omega
    · rw [findNR_take_big h hp j hj1]
      exact hjs
    · intro j2 hj2a hj2b
      have hj3 : 1 ≤ j2 - c.pfx.length := by omega
      rw [show j2 = c.pfx.length + (j2 - c.pfx.length) by omega,
        findNR_take_big h hp _ hj3]
      exact bestLenAux_above hbl2 _ (by omega) (by rw [hlen2]; omega)
  | none =>
    have hbl2 : bestLenAux c ((b :: rest).drop c.pfx.length)
        ((b :: rest).drop c.pfx.length).length = none := hbl
    by_cases hcr : (c.route).isSome
    · simp only [if_pos hcr]
      show bestLenAux n (b :: rest) (b :: rest).length = some c.pfx.length
      apply bestLenAux_of_best
      · exact hK1
      · exact hKlen
      · rw [findNR_take_pfx h hp]
        exact hcr
      · intro j2 hj2a hj2b
        have hj3 : 1 ≤ j2 - c.pfx.length := by omega
        rw [show j2 = c.pfx.length + (j2 - c.pfx.length) by omega,
          findNR_take_big h hp _ hj3]
        exact bestLenAux_none hbl2 _ hj3 (by rw [hlen2]; omega)
    · simp only [if_neg hcr]
      show bestLenAux n (b :: rest) (b :: rest).length = none
      apply bestLenAux_of_none
      intro j2 hj2a hj2b
      rcases lt_trichotomy j2 c.pfx.length with hlt | heq | hgt
      · exact findNR_take_small h j2 hj2a hlt
      · subst heq
        rw [findNR_take_pfx h hp]
        exact Option.not_isSome_iff_eq_none.mp hcr
      · have hj3 : 1 ≤ j2 - c.pfx.length := by omega
        rw [show j2 = c.pfx.length + (j2 - c.pfx.length) by omega,
          findNR_take_big h hp _ hj3]
        exact bestLenAux_none hbl2 _ hj3 (by rw [hlen2]; omega)

/-- Master lemma: the descent loop returns the route found at the
longest nonempty candidate prefix, falling back to `best`. -/
theorem lookupStep_fst (n : RNode) (p : Str) (best : Option StaticRoute) :
    (lookupStep n p best).1 =
      match bestLen n p with
      | some k => findNR n (p.take k)
      | none => best := by
  induction n, p, best using lookupStep.induct with
  | case1 n best =>
    simp [bestLen, bestLenAux]
  | case2 n b rest best h =>
    have hnone : bestLen n (b :: rest) = none := by
      apply bestLenAux_of_none
      intro j hj1 hj2
      exact findNR_none_of_head (take_cons_head hj1) h
    rw [lookupStep_cons_none h, hnone]
  | case3 n b rest best c h hp ih =>
    rw [lookupStep_cons_some h, if_pos hp, ih]
    have hd := bestLen_descend h hp
    cases hbl : bestLen c ((b :: rest).drop c.pfx.length) with
    | some j =>
      rw [hbl] at hd
      have hd2 : bestLen n (b :: rest) = some (c.pfx.length + j) := hd
      have hbl2 : bestLenAux c ((b :: rest).drop c.pfx.length)
          ((b :: rest).drop c.pfx.length).length = some j := hbl
      obtain ⟨hj1, -, -⟩ := bestLenAux_some hbl2
      rw [hd2]
      show findNR c (((b :: rest).drop c.pfx.length).take j)
          = findNR n ((b :: rest).take (c.pfx.length + j))
      exact (findNR_take_big h hp j hj1).symm
    | none =>
      rw [hbl] at hd
      cases hcr : c.route with
      | some rr =>
        rw [hcr] at hd
        have hd2 : bestLen n (b :: rest) = some c.pfx.length := hd
        rw [hd2]
        show some rr = findNR n ((b :: rest).take c.pfx.length)
        rw [findNR_take_pfx h hp, hcr]
      | none =>
        rw [hcr] at hd
        have hd2 : bestLen n (b :: rest) = none := hd
        rw [hd2]
  | case4 n b rest best c h hp =>
    have hnone : bestLen n (b :: rest) = none := by
      apply bestLenAux_of_none
      intro j hj1 hj2
      rw [findNR_eq_of_head (take_cons_head hj1) h]
      rw [if_neg (fun hpre => hp (hpre.trans (List.take_prefix _ _)))]
    rw [lookupStep_cons_some h, if_neg hp, hnone]

/-! ### From the table level down to one radix tree -/

/-- Folding the per-host inserts of a route list into a root. -/
def rootFold (root : RNode) (rs : List StaticRoute) : RNode :=
  rs.foldl (fun n r => insertN n r.PathPrefix r) root

/-- The routes of `rs` whose host is `host`, in order. -/
def hostRoutes (rs : List StaticRoute) (host : Str) : List StaticRoute :=
  rs.filter (fun r => decide (r.Host = host))

/-- Last-write-wins association of a path prefix to a route. -/
def lastMatch (rs : List StaticRoute) (q : Str) : Option StaticRoute :=
  rs.foldl (fun acc r => if q = r.PathPrefix then some r else acc) none

@[simp] theorem findNR_emptyRoot (q : Str) :
    findNR (RNode.mk [] none []) q = none := by
  cases q with
  | nil => simp
  | cons b rest => exact findNR_cons_none (by simp)

theorem rootFold_cons (root : RNode) (r : StaticRoute) (rs : List StaticRoute) :
    rootFold root (r :: rs) = rootFold (insertN root r.PathPrefix r) rs := rfl

theorem findNR_rootFold (root : RNode) (rs : List StaticRoute) (q : Str) :
    findNR (rootFold root rs) q =
      rs.foldl (fun acc r => if q = r.PathPrefix then some r else acc)
        (findNR root q) := by
  induction rs generalizing root with
  | nil => rfl
  | cons r rs ih =>
    rw [rootFold_cons, ih, List.foldl_cons, findNR_insertN]

theorem foldl_last_some {rs : List StaticRoute} {q : Str}
    {init : Option StaticRoute} {r : StaticRoute}
    (h : rs.foldl (fun acc x => if q = x.PathPrefix then some x else acc) init
      = some r) :
    (r ∈ rs ∧ r.PathPrefix = q) ∨ init = some r := by
  induction rs generalizing init with
  | nil => exact Or.inr h
  | cons x rs ih =>
    rw [List.foldl_cons] at h
    rcases ih h with hmem | hinit
    · exact Or.inl ⟨List.mem_cons_of_mem x hmem.1, hmem.2⟩
    · by_cases hq : q = x.PathPrefix
      · rw [if_pos hq] at hinit
        injection hinit with hinit
        exact Or.inl ⟨hinit ▸ List.mem_cons_self x rs, hinit ▸ hq.symm⟩
      · rw [if_neg hq] at hinit
        exact Or.inr hinit

theorem foldl_last_const {rs : List StaticRoute} {q : Str}
    (h : ∀ r ∈ rs, r.PathPrefix ≠ q) (init : Option StaticRoute) :
    rs.foldl (fun acc x => if q = x.PathPrefix then some x else acc) init
      = init := by
  induction rs generalizing init with
  | nil => rfl
  | cons y ys ihy =>
    rw [List.foldl_cons,
      if_neg (fun hh => h y (List.mem_cons_self y ys) hh.symm)]
    exact ihy (fun r hr => h r (List.mem_cons_of_mem y hr)) init

theorem foldl_last_isSome {rs : List StaticRoute} {q : Str}
    {init : Option StaticRoute}
    (h : ∃ r ∈ rs, r.PathPrefix = q) :
    (rs.foldl (fun acc x => if q = x.PathPrefix then some x else acc)
      init).isSome := by
  induction rs generalizing init with
  | nil => simp at h
  | cons x rs ih =>
    rw [List.foldl_cons]
    by_cases hmem : ∃ r2 ∈ rs, r2.PathPrefix = q
    · exact ih hmem
    · obtain ⟨r, hr, hq⟩ := h
      rcases List.mem_cons.mp hr with hx | hx
      · subst hx
        rw [foldl_last_const (fun r2 hr2 hq2 => hmem ⟨r2, hr2, hq2⟩) _,
          if_pos hq.symm]
        simp
      · exact (hmem ⟨r, hx, hq⟩).elim

theorem insertT_hosts (t : RouteTable) (r : StaticRoute) (host : Str) :
    (t.insertT r).hosts host =
      if host = r.Host then
        some (insertN
          (match t.hosts r.Host with
           | some n => n
           | none => RNode.mk [] none []) r.PathPrefix r)
      else t.hosts host := rfl

theorem foldl_insertT_hosts (rs : List StaticRoute) (t : RouteTable) (host : Str) :
    (rs.foldl RouteTable.insertT t).hosts host =
      if (hostRoutes rs host).isEmpty then t.hosts host
      else
        some (rootFold
          (match t.hosts host with
           | some n => n
           | none => RNode.mk [] none []) (hostRoutes rs host)) := by
  induction rs generalizing t with
  | nil => simp [hostRoutes]
  | cons r rs ih =>
    rw [List.foldl_cons, ih]
    by_cases hh : r.Host = host
    · have hfil : hostRoutes (r :: rs) host = r :: hostRoutes rs host := by
        simp [hostRoutes, List.filter_cons, hh]
      rw [hfil]
      have ht : (t.insertT r).hosts host =
          some (insertN
            (match t.hosts host with
             | some n => n
             | none => RNode.mk [] none []) r.PathPrefix r) := by
        rw [insertT_hosts, if_pos hh.symm, hh]
      rw [ht]
      cases hfe : (hostRoutes rs host).isEmpty
      · simp only [Bool.false_eq_true, if_false, List.isEmpty_cons, rootFold_cons]
      · have hnil : hostRoutes rs host = [] := by
          simpa using hfe
        simp only [if_pos hfe, List.isEmpty_cons, hnil, rootFold_cons]
        rfl
    · have hfil : hostRoutes (r :: rs) host = hostRoutes rs host := by
        simp [hostRoutes, List.filter_cons, hh]
      have ht : (t.insertT r).hosts host = t.hosts host := by
        rw [insertT_hosts, if_neg (fun he => hh he.symm)]
      rw [hfil, ht]

theorem foldl_insertT_cache (rs : List StaticRoute) (t : RouteTable)
    (h : t.cache.items = []) :
    (rs.foldl RouteTable.insertT t).cache.items = [] := by
  induction rs generalizing t with
  | nil => exact h
  | cons r rs ih =>
    rw [List.foldl_cons]
    exact ih _ rfl

theorem lookupT_of_empty_cache (t : RouteTable) (h : t.cache.items = [])
    (host p : Str) :
    (t.lookupT host p).1 = pureLookup t host p := by
  have hget : t.cache.get (cacheKeyOf host p) = (none, t.cache) := by
    unfold LruCache.get
    rw [show lookupKey t.cache.items (cacheKeyOf host p) = none by
      rw [h]; rfl]
  unfold RouteTable.lookupT
  simp only [hget]
  cases hpl : pureLookup t host p with
  | mk fst snd =>
    cases fst <;> simp

theorem lastMatch_some {rs : List StaticRoute} {q : Str} {r : StaticRoute}
    (h : lastMatch rs q = some r) : r ∈ rs ∧ r.PathPrefix = q := by
  rcases foldl_last_some h with h1 | h2
  · exact h1
  · cases h2

theorem mem_hostRoutes {rs : List StaticRoute} {host : Str} {r : StaticRoute} :
    r ∈ hostRoutes rs host ↔ r ∈ rs ∧ r.Host = host := by
  simp [hostRoutes]

theorem lookupRadix_fst (root : RNode) (p : Str) :
    (lookupRadix root p).1 = (lookupStep root p root.route).1 := by
  unfold lookupRadix
  cases h : lookupStep root p root.route with
  | mk f s => cases f <;> simp

theorem lookupRadix_of_none (root : RNode) (p : Str)
    (h : (lookupStep root p root.route).1 = none) :
    lookupRadix root p = (none, p) := by
  unfold lookupRadix
  cases hls : lookupStep root p root.route with
  | mk f s =>
    rw [hls] at h
    simp only at h
    subst h
    simp

theorem pureLookup_some (t : RouteTable) (host p : Str) (root : RNode)
    (h : t.hosts host = some root) :
    pureLookup t host p = lookupRadix root p := by
  unfold pureLookup
  rw [h]

theorem pureLookup_hostless (t : RouteTable) (host p : Str)
    (h : t.hosts host = none) :
    pureLookup t host p = (none, p) := by
  unfold pureLookup
  rw [h]

/-- The tree built for a host by inserting the list of routes. -/
def hostRoot (rs : List StaticRoute) (host : Str) : RNode :=
  rootFold (RNode.mk [] none []) (hostRoutes rs host)

theorem buildTable_hosts (rs : List StaticRoute) (host : Str) :
    (buildTable rs).hosts host =
      if (hostRoutes rs host).isEmpty then none
      else some (hostRoot rs host) := by
  have h := foldl_insertT_hosts rs newRouteTable host
  exact h

theorem buildTable_cache (rs : List StaticRoute) :
    (buildTable rs).cache.items = [] :=
  foldl_insertT_cache rs newRouteTable rfl

theorem findNR_hostRoot (rs : List StaticRoute) (host : Str) (q : Str) :
    findNR (hostRoot rs host) q = lastMatch (hostRoutes rs host) q := by
  unfold hostRoot lastMatch
  rw [findNR_rootFold, findNR_emptyRoot]

/-- C1. For every host, every list of routes inserted into the route
table, and every path `p`: if some inserted route under that host has a
`PathPrefix` that is a prefix of `p`, the lookup returns such a route of
maximal `PathPrefix` length (insertion order does not matter); otherwise
it returns no route together with the path unchanged. -/
theorem C1_longest_prefix_routing (rs : List StaticRoute) (host p : Str) :
    ((∃ r ∈ rs, r.Host = host ∧ r.PathPrefix <+: p) →
      ∃ r ∈ rs, (((buildTable rs).lookupT host p).1).1 = some r ∧
        r.Host = host ∧ r.PathPrefix <+: p ∧
        ∀ r2 ∈ rs, r2.Host = host → r2.PathPrefix <+: p →
          r2.PathPrefix.length ≤ r.PathPrefix.length) ∧
    ((¬ ∃ r ∈ rs, r.Host = host ∧ r.PathPrefix <+: p) →
      ((buildTable rs).lookupT host p).1 = (none, p)) := by
  have hres := lookupT_of_empty_cache (buildTable rs) (buildTable_cache rs) host p
  by_cases hRH : (hostRoutes rs host).isEmpty
  · have hnone : (buildTable rs).hosts host = none := by
      rw [buildTable_hosts, if_pos hRH]
    have hfin : ((buildTable rs).lookupT host p).1 = (none, p) := by
      rw [hres, pureLookup_hostless _ _ _ hnone]
    constructor
    · rintro ⟨r0, hr0, hH0, -⟩
      have : r0 ∈ hostRoutes rs host := mem_hostRoutes.mpr ⟨hr0, hH0⟩
      rw [List.isEmpty_iff.mp hRH] at this
      cases this
    · intro _
      exact hfin
  · have hsome : (buildTable rs).hosts host = some (hostRoot rs host) := by
      rw [buildTable_hosts, if_neg hRH]
    have hpl : ((buildTable rs).lookupT host p).1
        = lookupRadix (hostRoot rs host) p := by
      rw [hres, pureLookup_some _ _ _ _ hsome]
    constructor
    · rintro ⟨r0, hr0, hH0, hP0⟩
      have hr0RH : r0 ∈ hostRoutes rs host := mem_hostRoutes.mpr ⟨hr0, hH0⟩
      cases hbl : bestLen (hostRoot rs host) p with
      | some k =>
        have hbl2 : bestLenAux (hostRoot rs host) p p.length = some k := hbl
        obtain ⟨hk1, hk2, hks⟩ := bestLenAux_some hbl2
        obtain ⟨rbest, hrbest⟩ := Option.isSome_iff_exists.mp hks
        have hlm : lastMatch (hostRoutes rs host) (p.take k) = some rbest := by
          rw [← findNR_hostRoot]
          exact hrbest
        obtain ⟨hmem, hpp⟩ := lastMatch_some hlm
        obtain ⟨hrs2, hhost2⟩ := mem_hostRoutes.mp hmem
        refine ⟨rbest, hrs2, ?_, hhost2, ?_, ?_⟩
        · rw [hpl, lookupRadix_fst, lookupStep_fst, hbl]
          exact hrbest
        · rw [hpp]
          exact List.take_prefix _ _
        · intro r2 hr2 hH2 hP2
          have hr2RH : r2 ∈ hostRoutes rs host := mem_hostRoutes.mpr ⟨hr2, hH2⟩
          have hlen : rbest.PathPrefix.length = k := by
            rw [hpp, List.length_take]
            omega
          rw [hlen]
          by_contra hgt
          push_neg at hgt
          have hq2 : r2.PathPrefix = p.take r2.PathPrefix.length :=
            List.prefix_iff_eq_take.mp hP2
          have hdead := bestLenAux_above hbl2 r2.PathPrefix.length hgt
            (hP2.length_le)
          have hlive : (findNR (hostRoot rs host)
              (p.take r2.PathPrefix.length)).isSome := by
            rw [findNR_hostRoot, ← hq2]
            exact foldl_last_isSome ⟨r2, hr2RH, rfl⟩
          rw [hdead] at hlive
          simp at hlive
      | none =>
        have hbl2 : bestLenAux (hostRoot rs host) p p.length = none := hbl
        have hnilpfx : ∀ r2 ∈ rs, r2.Host = host → r2.PathPrefix <+: p →
            r2.PathPrefix = [] := by
          intro r2 hr2 hH2 hP2
          by_contra hne
          have hlen : 1 ≤ r2.PathPrefix.length := by
            cases hq : r2.PathPrefix with
            | nil => exact absurd hq hne
            | cons x xs => simp
          have hq2 : r2.PathPrefix = p.take r2.PathPrefix.length :=
            List.prefix_iff_eq_take.mp hP2
          have hdead := bestLenAux_none hbl2 r2.PathPrefix.length hlen
            (hP2.length_le)
          have hlive : (findNR (hostRoot rs host)
              (p.take r2.PathPrefix.length)).isSome := by
            rw [findNR_hostRoot, ← hq2]
            exact foldl_last_isSome
              ⟨r2, mem_hostRoutes.mpr ⟨hr2, hH2⟩, rfl⟩
          rw [hdead] at hlive
          simp at hlive
        have hr0nil : r0.PathPrefix = [] := hnilpfx r0 hr0 hH0 hP0
        have hsome2 : (lastMatch (hostRoutes rs host) []).isSome :=
          foldl_last_isSome ⟨r0, hr0RH, hr0nil⟩
        obtain ⟨rbest, hrbest⟩ := Option.isSome_iff_exists.mp hsome2
        obtain ⟨hmem, hpp⟩ := lastMatch_some hrbest
        obtain ⟨hrs2, hhost2⟩ := mem_hostRoutes.mp hmem
        refine ⟨rbest, hrs2, ?_, hhost2, ?_, ?_⟩
        · rw [hpl, lookupRadix_fst, lookupStep_fst, hbl]
          show (hostRoot rs host).route = some rbest
          rw [← findNR_nil, findNR_hostRoot]
          exact hrbest
        · rw [hpp]
          exact List.nil_prefix
        · intro r2 hr2 hH2 hP2
          rw [hnilpfx r2 hr2 hH2 hP2, hpp]
    · intro hno
      have hbl : bestLen (hostRoot rs host) p = none := by
        apply bestLenAux_of_none
        intro j hj1 hj2
        cases hfq : findNR (hostRoot rs host) (p.take j) with
        | none => rfl
        | some r =>
          rw [findNR_hostRoot] at hfq
          obtain ⟨hmem, hpp⟩ := lastMatch_some hfq
          obtain ⟨hrs2, hhost2⟩ := mem_hostRoutes.mp hmem
          exact absurd ⟨r, hrs2, hhost2, hpp ▸ List.take_prefix _ _⟩ hno
      have hrr : (hostRoot rs host).route = none := by
        rw [← findNR_nil, findNR_hostRoot]
        cases hlm : lastMatch (hostRoutes rs host) [] with
        | none => rfl
        | some r =>
          obtain ⟨hmem, hpp⟩ := lastMatch_some hlm
          obtain ⟨hrs2, hhost2⟩ := mem_hostRoutes.mp hmem
          exact absurd ⟨r, hrs2, hhost2, hpp ▸ List.nil_prefix⟩ hno
      rw [hpl]
      apply lookupRadix_of_none
      rw [lookupStep_fst, hbl, hrr]

/-- Concrete route "/a" used by the C1 witness. -/
def c1ra : StaticRoute := ⟨1, ['h'], ['/', 'a'], ['t'], false, 0⟩

/-- Concrete route "/ab" used by the C1 witness. -/
def c1rb : StaticRoute := ⟨2, ['h'], ['/', 'a', 'b'], ['u'], false, 0⟩

unseal insertN findNR lookupStep in
/-- Witness for C1 at a two-route table and the path "/abc". -/
theorem C1_witness :
    ∃ r ∈ [c1ra, c1rb],
      (((buildTable [c1ra, c1rb]).lookupT ['h'] ['/', 'a', 'b', 'c']).1).1
        = some r ∧
      r.Host = ['h'] ∧ r.PathPrefix <+: ['/', 'a', 'b', 'c'] ∧
      ∀ r2 ∈ [c1ra, c1rb], r2.Host = ['h'] →
        r2.PathPrefix <+: ['/', 'a', 'b', 'c'] →
        r2.PathPrefix.length ≤ r.PathPrefix.length :=
  (C1_longest_prefix_routing [c1ra, c1rb] ['h'] ['/', 'a', 'b', 'c']).1
    ⟨c1ra, by simp, rfl, by decide⟩

theorem lookupStep_snd_suffix (n : RNode) (p : Str) (best : Option StaticRoute) :
    (lookupStep n p best).2 <:+ p := by
  induction n, p, best using lookupStep.induct with
  | case1 n best => simp
  | case2 n b rest best h =>
    rw [lookupStep_cons_none h]
  | case3 n b rest best c h hp ih =>
    rw [lookupStep_cons_some h, if_pos hp]
    exact ih.trans (List.drop_suffix _ _)
  | case4 n b rest best c h hp =>
    rw [lookupStep_cons_some h, if_neg hp]

theorem lookupStep_snd_bestLen (n : RNode) (p : Str) (best : Option StaticRoute) :
    ∀ k, bestLen n p = some k → (lookupStep n p best).2 <:+ p.drop k := by
  induction n, p, best using lookupStep.induct with
  | case1 n best =>
    intro k hb
    have : bestLenAux n ([] : Str) 0 = none := rfl
    rw [show bestLen n ([] : Str) = none from this] at hb
    cases hb
  | case2 n b rest best h =>
    intro k hb
    have hnone : bestLen n (b :: rest) = none := by
      apply bestLenAux_of_none
      intro j hj1 hj2
      exact findNR_none_of_head (take_cons_head hj1) h
    rw [hnone] at hb
    cases hb
  | case3 n b rest best c h hp ih =>
    intro k hb
    rw [lookupStep_cons_some h, if_pos hp]
    have hd := bestLen_descend h hp
    cases hbl : bestLen c ((b :: rest).drop c.pfx.length) with
    | some j =>
      rw [hbl] at hd
      have hd2 : bestLen n (b :: rest) = some (c.pfx.length + j) := hd
      rw [hd2] at hb
      injection hb with hb
      subst hb
      have hsuf := ih j hbl
      have hdd : ((b :: rest).drop c.pfx.length).drop j
          = (b :: rest).drop (c.pfx.length + j) :=
        List.drop_drop j c.pfx.length (b :: rest)
      rw [← hdd]
      exact hsuf
    | none =>
      rw [hbl] at hd
      cases hcr : c.route with
      | some rr =>
        rw [hcr] at hd
        have hd2 : bestLen n (b :: rest) = some c.pfx.length := hd
        rw [hd2] at hb
        injection hb with hb
        subst hb
        exact lookupStep_snd_suffix _ _ _
      | none =>
        rw [hcr] at hd
        have hd2 : bestLen n (b :: rest) = none := hd
        rw [hd2] at hb
        cases hb
  | case4 n b rest best c h hp =>
    intro k hb
    have hnone : bestLen n (b :: rest) = none := by
      apply bestLenAux_of_none
      intro j hj1 hj2
      rw [findNR_eq_of_head (take_cons_head hj1) h]
      rw [if_neg (fun hpre => hp (hpre.trans (List.take_prefix _ _)))]
    rw [hnone] at hb
    cases hb

/-- C2 (amended). For tables built by inserting a route list: a match
returned by `ResolveStaticRoute` has a `PathPrefix` that prefixes the
path; with `strip_prefix` and a non-"/" prefix the effective path is "/"
or a suffix of `path[len(prefix):]` (the radix descent may consume
further bytes through route-less interior nodes); otherwise the
effective path is the path unchanged. -/
theorem C2_strip_effective_path (rs : List StaticRoute) (host p : Str)
    (r : StaticRoute) (eff : Str)
    (h : (ResolveStaticRoute (buildTable rs) host p).1 = .ok (r, eff)) :
    r.PathPrefix <+: p ∧
    ((r.StripPrefix = true ∧ r.PathPrefix ≠ ['/']) →
      eff = ['/'] ∨ eff <:+ p.drop r.PathPrefix.length) ∧
    (¬ (r.StripPrefix = true ∧ r.PathPrefix ≠ ['/']) → eff = p) := by
  have hres := lookupT_of_empty_cache (buildTable rs) (buildTable_cache rs) host p
  unfold ResolveStaticRoute at h
  cases hlk : (buildTable rs).lookupT host p with
  | mk res t2 =>
    obtain ⟨ro, rem⟩ := res
    rw [hlk] at h hres
    cases ro with
    | none => simp at h
    | some r2 =>
      simp only [Option.some.injEq, Except.ok.injEq, Prod.mk.injEq] at h
      obtain ⟨hr2, heff⟩ := h
      rw [hr2] at hres heff
      have hpure : pureLookup (buildTable rs) host p = (some r, rem) := hres.symm
      cases hhosts : (buildTable rs).hosts host with
      | none =>
        rw [pureLookup_hostless _ _ _ hhosts] at hpure
        simp at hpure
      | some root =>
        rw [pureLookup_some _ _ _ _ hhosts] at hpure
        unfold lookupRadix at hpure
        cases hls : lookupStep root p root.route with
        | mk f0 rem0 =>
          rw [hls] at hpure
          cases f0 with
          | none => simp at hpure
          | some rr =>
            simp only [Prod.mk.injEq, Option.some.injEq] at hpure
            obtain ⟨hrr, hrem⟩ := hpure
            rw [hrr] at hls
            have hfst : (lookupStep root p root.route).1 = some r := by
              rw [hls]
            rw [lookupStep_fst] at hfst
            have hroot : root = hostRoot rs host := by
              rw [buildTable_hosts] at hhosts
              by_cases hRH : (hostRoutes rs host).isEmpty
              · rw [if_pos hRH] at hhosts; cases hhosts
              · rw [if_neg hRH] at hhosts
                injection hhosts with hh
                exact hh.symm
            have hkey : r.PathPrefix <+: p ∧
                rem0 <:+ p.drop r.PathPrefix.length := by
              cases hbl : bestLen root p with
              | some k =>
                rw [hbl] at hfst
                have hfst2 : findNR root (p.take k) = some r := hfst
                rw [hroot, findNR_hostRoot] at hfst2
                obtain ⟨-, hpp⟩ := lastMatch_some hfst2
                have hk2 : k ≤ p.length := (bestLenAux_some hbl).2.1
                have hlen : r.PathPrefix.length = k := by
                  rw [hpp, List.length_take]
                  omega
                constructor
                · rw [hpp]; exact List.take_prefix _ _
                · rw [hlen]
                  have hsnd := lookupStep_snd_bestLen root p root.route k hbl
                  rw [hls] at hsnd
                  exact hsnd
              | none =>
                rw [hbl] at hfst
                have hfst2 : root.route = some r := hfst
                rw [← findNR_nil, hroot, findNR_hostRoot] at hfst2
                obtain ⟨-, hpp⟩ := lastMatch_some hfst2
                have hlen : r.PathPrefix.length = 0 := by rw [hpp]; rfl
                constructor
                · rw [hpp]; exact List.nil_prefix
                · rw [hlen, List.drop_zero]
                  have hsnd := lookupStep_snd_suffix root p root.route
                  rw [hls] at hsnd
                  exact hsnd
            refine ⟨hkey.1, ?_, ?_⟩
            · intro hstrip
              rw [← heff, if_pos hstrip]
              by_cases hremnil : rem = []
              · left
                rw [if_pos hremnil]
              · rw [if_neg hremnil]
                by_cases hrem0 : rem0 = []
                · left
                  rw [← hrem, if_pos hrem0]
                · right
                  rw [← hrem, if_neg hrem0]
                  exact hkey.2
            · intro hstrip
              rw [← heff, if_neg hstrip]

/-- Routes of the C2 counterexample: a strip route "/a" shadowed below
by two deeper routes whose split creates a route-less interior node. -/
def c2ra : StaticRoute := ⟨1, ['h'], ['/', 'a'], ['t'], true, 0⟩

/-- Deeper route "/a/bc" of the C2 counterexample. -/
def c2rb : StaticRoute := ⟨2, ['h'], ['/', 'a', '/', 'b', 'c'], ['t'], false, 0⟩

/-- Deeper route "/a/bd" of the C2 counterexample. -/
def c2rc : StaticRoute := ⟨3, ['h'], ['/', 'a', '/', 'b', 'd'], ['t'], false, 0⟩

unseal insertN findNR lookupStep in
/-- C2 counterexample: on path "/a/bx" the matched route is "/a" with
strip_prefix set and prefix not "/", yet the effective path is "x", not
path[len(prefix):] = "/bx" as the claim requires. -/
theorem C2_counterexample :
    (ResolveStaticRoute (buildTable [c2ra, c2rb, c2rc]) ['h']
        ['/', 'a', '/', 'b', 'x']).1 = .ok (c2ra, ['x']) ∧
    c2ra.StripPrefix = true ∧ c2ra.PathPrefix ≠ ['/'] ∧
    (['x'] : Str) ≠ (['/', 'a', '/', 'b', 'x'] : Str).drop c2ra.PathPrefix.length := by
  refine ⟨by rfl, rfl, ?_, ?_⟩
  · intro hh
    cases hh
  · intro hh
    cases hh

unseal insertN findNR lookupStep in
/-- Witness for the amended C2 theorem at a concrete strip route. -/
theorem C2_witness :
    c2ra.PathPrefix <+: (['/', 'a', '/', 'b', 'x'] : Str) ∧
    ((c2ra.StripPrefix = true ∧ c2ra.PathPrefix ≠ ['/']) →
      (['x'] : Str) = ['/'] ∨
        (['x'] : Str) <:+ (['/', 'a', '/', 'b', 'x'] : Str).drop c2ra.PathPrefix.length) ∧
    (¬ (c2ra.StripPrefix = true ∧ c2ra.PathPrefix ≠ ['/']) →
      (['x'] : Str) = ['/', 'a', '/', 'b', 'x']) :=
  C2_strip_effective_path [c2ra, c2rb, c2rc] ['h'] ['/', 'a', '/', 'b', 'x']
    c2ra ['x'] (by rfl)

/-! ### Structural invariants of the radix tree (C9) -/

theorem removeNodeGo_nil_some (p : Str) (r : StaticRoute) (cs : List RNode) :
    removeNodeGo (RNode.mk p (some r) cs) [] = (RNode.mk p none cs, true) := by
  rw [removeNodeGo]

theorem removeNodeGo_nil_none (p : Str) (cs : List RNode) :
    removeNodeGo (RNode.mk p none cs) [] = (RNode.mk p none cs, false) := by
  rw [removeNodeGo]

theorem removeNodeGo_cons_nosplit {cs : List RNode} {b : Char}
    (p : Str) (nr : Option StaticRoute) (rest : Str)
    (h : splitChild cs b = none) :
    removeNodeGo (RNode.mk p nr cs) (b :: rest) = (RNode.mk p nr cs, false) := by
  rw [removeNodeGo]
  split
  · rfl
  · rename_i l c rs heq
    rw [h] at heq
    cases heq

theorem removeNodeGo_cons_split {cs : List RNode} {b : Char}
    {l : List RNode} {c : RNode} {rs : List RNode}
    (p : Str) (nr : Option StaticRoute) (rest : Str)
    (h : splitChild cs b = some (l, c, rs)) :
    removeNodeGo (RNode.mk p nr cs) (b :: rest) =
      if c.pfx <+: (b :: rest) then
        if (removeNodeGo c ((b :: rest).drop c.pfx.length)).2 then
          (RNode.mk p nr
            (l ++ compactChild (removeNodeGo c ((b :: rest).drop c.pfx.length)).1
              ++ rs), true)
        else (RNode.mk p nr cs, false)
      else (RNode.mk p nr cs, false) := by
  rw [removeNodeGo]
  split
  · rename_i heq
    rw [h] at heq
    cases heq
  · rename_i l2 c2 rs2 heq
    rw [h] at heq
    injection heq with h1
    injection h1 with h1 h2
    injection h2 with h2 h3
    subst h1
    subst h2
    subst h3
    rfl

theorem splitChild_decomp {cs : List RNode} {b : Char}
    {l : List RNode} {c : RNode} {rs : List RNode}
    (h : splitChild cs b = some (l, c, rs)) :
    cs = l ++ c :: rs ∧ ∀ x ∈ l, x.pfx.head? ≠ some b := by
  induction cs generalizing l rs with
  | nil => simp [splitChild] at h
  | cons c0 cs0 ih =>
    by_cases h0 : c0.pfx.head? = some b
    · simp only [splitChild, if_pos h0, Option.some.injEq, Prod.mk.injEq] at h
      obtain ⟨h1, h2, h3⟩ := h
      subst h2
      subst h3
      rw [← h1]
      exact ⟨rfl, by simp⟩
    · simp only [splitChild, if_neg h0] at h
      cases h4 : splitChild cs0 b with
      | none => rw [h4] at h; cases h
      | some v =>
        obtain ⟨l2, c2, rs2⟩ := v
        rw [h4] at h
        simp only [Option.some.injEq, Prod.mk.injEq] at h
        obtain ⟨h1, h2, h3⟩ := h
        subst h2
        subst h3
        obtain ⟨hd, hl⟩ := ih h4
        constructor
        · rw [← h1, hd]; rfl
        · intro x hx
          rw [← h1] at hx
          rcases List.mem_cons.mp hx with hx | hx
          · exact hx ▸ h0
          · exact hl x hx

theorem findChild_mem {cs : List RNode} {b : Char} {c : RNode}
    (h : findChild cs b = some c) : c ∈ cs :=
  List.mem_of_find?_eq_some h

/-- The structural invariant of §3 of the spec: at every node the
children carry non-empty prefixes with pairwise distinct first bytes,
and every non-root route-less node has at least two children (hence no
route-less leaves). -/
inductive StrongInv : RNode → Prop where
  | node (p : Str) (r : Option StaticRoute) (cs : List RNode)
      (hne : ∀ c ∈ cs, c.pfx ≠ [])
      (hbig : ∀ c ∈ cs, c.route = none → 2 ≤ c.children.length)
      (hrec : ∀ c ∈ cs, StrongInv c)
      (hdis : (cs.map fun c => c.pfx.head?).Pairwise Ne) :
      StrongInv (RNode.mk p r cs)

theorem strongInv_destruct {p : Str} {r : Option StaticRoute} {cs : List RNode}
    (h : StrongInv (RNode.mk p r cs)) :
    (∀ c ∈ cs, c.pfx ≠ []) ∧
    (∀ c ∈ cs, c.route = none → 2 ≤ c.children.length) ∧
    (∀ c ∈ cs, StrongInv c) ∧
    (cs.map fun c => c.pfx.head?).Pairwise Ne := by
  cases h with
  | node _ _ _ hne hbig hrec hdis => exact ⟨hne, hbig, hrec, hdis⟩

theorem strongInv_remk {c : RNode} (h : StrongInv c) (p2 : Str)
    (r2 : Option StaticRoute) :
    StrongInv (RNode.mk p2 r2 c.children) := by
  cases c with
  | mk cp cr cc =>
    obtain ⟨hne, hbig, hrec, hdis⟩ := strongInv_destruct h
    exact StrongInv.node p2 r2 cc hne hbig hrec hdis

theorem setChild_cons (c0 : RNode) (cs0 : List RNode) (b : Char) (nc : RNode) :
    setChild (c0 :: cs0) b nc =
      if c0.pfx.head? = some b then nc :: cs0
      else c0 :: setChild cs0 b nc := rfl

theorem setChild_map_head {cs : List RNode} {b : Char} {nc : RNode}
    (hnc : nc.pfx.head? = some b) :
    (setChild cs b nc).map (fun c => c.pfx.head?)
      = cs.map (fun c => c.pfx.head?) := by
  induction cs with
  | nil => rfl
  | cons c0 cs0 ih =>
    by_cases h0 : c0.pfx.head? = some b
    · rw [setChild_cons, if_pos h0, List.map_cons, List.map_cons, hnc, h0]
    · rw [setChild_cons, if_neg h0, List.map_cons, List.map_cons, ih]

theorem mem_setChild {cs : List RNode} {b : Char} {nc x : RNode}
    (h : x ∈ setChild cs b nc) : x = nc ∨ x ∈ cs := by
  induction cs with
  | nil => simp [setChild] at h
  | cons c0 cs0 ih =>
    by_cases h0 : c0.pfx.head? = some b
    · rw [setChild_cons, if_pos h0] at h
      rcases List.mem_cons.mp h with hx | hx
      · exact Or.inl hx
      · exact Or.inr (List.mem_cons_of_mem _ hx)
    · rw [setChild_cons, if_neg h0] at h
      rcases List.mem_cons.mp h with hx | hx
      · exact Or.inr (hx ▸ List.mem_cons_self _ _)
      · rcases ih hx with hx2 | hx2
        · exact Or.inl hx2
        · exact Or.inr (List.mem_cons_of_mem _ hx2)

theorem setChild_length (cs : List RNode) (b : Char) (nc : RNode) :
    (setChild cs b nc).length = cs.length := by
  induction cs with
  | nil => rfl
  | cons c0 cs0 ih =>
    by_cases h0 : c0.pfx.head? = some b
    · rw [setChild_cons, if_pos h0, List.length_cons, List.length_cons]
    · rw [setChild_cons, if_neg h0, List.length_cons, List.length_cons, ih]

theorem insertN_children_le (n : RNode) (q : Str) (r : StaticRoute) :
    n.children.length ≤ (insertN n q r).children.length := by
  cases n with
  | mk np nr cs =>
    cases q with
    | nil =>
      rw [insertN_nil]
      exact le_refl _
    | cons b rest =>
      cases hfc : findChild cs b with
      | none =>
        rw [insertN_cons_none np nr rest r hfc]
        simp
      | some c =>
        by_cases hcom : commonPrefix (b :: rest) c.pfx = c.pfx.length
        · rw [insertN_cons_descend np nr rest r hfc hcom]
          simp [setChild_length]
        · rw [insertN_cons_split np nr rest r hfc hcom]
          simp [setChild_length]

theorem strongInv_leaf (p : Str) (r : Option StaticRoute) :
    StrongInv (RNode.mk p r []) :=
  StrongInv.node p r [] (by simp) (by simp) (by simp) (by simp)

theorem strongInv_insertN (n : RNode) (q : Str) (r : StaticRoute)
    (h : StrongInv n) : StrongInv (insertN n q r) := by
  induction n, q, r using insertN.induct with
  | case1 npfx nroute cs r =>
    rw [insertN_nil]
    obtain ⟨hne, hbig, hrec, hdis⟩ := strongInv_destruct h
    exact StrongInv.node _ _ _ hne hbig hrec hdis
  | case2 npfx nroute cs b rest r hfc =>
    rw [insertN_cons_none npfx nroute rest r hfc]
    obtain ⟨hne, hbig, hrec, hdis⟩ := strongInv_destruct h
    apply StrongInv.node
    · intro c hc
      rcases List.mem_append.mp hc with hc | hc
      · exact hne c hc
      · rw [List.mem_singleton.mp hc]
        simp
    · intro c hc
      rcases List.mem_append.mp hc with hc | hc
      · exact hbig c hc
      · rw [List.mem_singleton.mp hc]
        intro hcr
        cases hcr
    · intro c hc
      rcases List.mem_append.mp hc with hc | hc
      · exact hrec c hc
      · rw [List.mem_singleton.mp hc]
        exact strongInv_leaf _ _
    · rw [List.map_append]
      apply List.pairwise_append.mpr
      refine ⟨hdis, by simp, ?_⟩
      intro x hx y hy
      simp only [List.map_cons, List.map_nil, List.mem_singleton,
        RNode.pfx_mk, List.head?_cons] at hy
      subst hy
      obtain ⟨c, hc, rfl⟩ := List.mem_map.mp hx
      exact findChild_none_not hfc hc
  | case3 npfx nroute cs b rest r c hfc common hcom ih =>
    rw [insertN_cons_descend npfx nroute rest r hfc hcom]
    obtain ⟨hne, hbig, hrec, hdis⟩ := strongInv_destruct h
    have hcmem := findChild_mem hfc
    have hchead := findChild_head hfc
    have hncpfx : (insertN c ((b :: rest).drop c.pfx.length) r).pfx = c.pfx :=
      insertN_pfx _ _ _
    rw [hcom] at ih
    have hnc : StrongInv (insertN c ((b :: rest).drop c.pfx.length) r) :=
      ih (hrec c hcmem)
    apply StrongInv.node
    · intro x hx
      rcases mem_setChild hx with hx | hx
      · subst hx
        rw [hncpfx]
        exact hne c hcmem
      · exact hne x hx
    · intro x hx
      rcases mem_setChild hx with hx | hx
      · subst hx
        intro hxr
        rw [insertN_route] at hxr
        by_cases hdn : (b :: rest).drop c.pfx.length = []
        · rw [if_pos hdn] at hxr
          cases hxr
        · rw [if_neg hdn] at hxr
          calc 2 ≤ c.children.length := hbig c hcmem hxr
            _ ≤ _ := insertN_children_le c _ r
      · exact hbig x hx
    · intro x hx
      rcases mem_setChild hx with hx | hx
      · subst hx
        exact hnc
      · exact hrec x hx
    · rw [setChild_map_head (by rw [hncpfx]; exact hchead)]
      exact hdis
  | case4 npfx nroute cs b rest r c hfc common hcom =>
    rw [insertN_cons_split npfx nroute rest r hfc hcom]
    obtain ⟨hne, hbig, hrec, hdis⟩ := strongInv_destruct h
    have hcmem := findChild_mem hfc
    have hchead := findChild_head hfc
    have hk1 : 1 ≤ commonPrefix (b :: rest) c.pfx := commonPrefix_pos hchead
    have hkc : commonPrefix (b :: rest) c.pfx < c.pfx.length :=
      lt_of_le_of_ne (commonPrefix_le_right _ _) hcom
    have hkq : commonPrefix (b :: rest) c.pfx ≤ (b :: rest).length :=
      commonPrefix_le_left _ _
    have hshead : ((b :: rest).take (commonPrefix (b :: rest) c.pfx)).head?
        = some b := take_cons_head hk1
    have hCne : c.pfx.drop (commonPrefix (b :: rest) c.pfx) ≠ [] := by
      intro hh
      have := congrArg List.length hh
      simp only [List.length_drop, List.length_nil] at this
      omega
    have hsinv := hrec c hcmem
    apply StrongInv.node
    · intro x hx
      rcases mem_setChild hx with hx | hx
      · subst hx
        simp only [RNode.pfx_mk]
        intro hnil
        rw [hnil] at hshead
        cases hshead
      · exact hne x hx
    · intro x hx
      rcases mem_setChild hx with hx | hx
      · subst hx
        simp only [RNode.route_mk, RNode.children_mk]
        intro hxr
        by_cases hkf : commonPrefix (b :: rest) c.pfx = (b :: rest).length
        · rw [if_pos hkf] at hxr
          cases hxr
        · rw [if_neg hkf]
          simp
      · exact hbig x hx
    · intro x hx
      rcases mem_setChild hx with hx | hx
      · subst hx
        apply StrongInv.node
        · intro y hy
          rcases List.mem_append.mp hy with hy | hy
          · rw [List.mem_singleton.mp hy]
            simp only [RNode.pfx_mk]
            exact hCne
          · by_cases hkf : commonPrefix (b :: rest) c.pfx = (b :: rest).length
            · rw [if_pos hkf] at hy
              cases hy
            · rw [if_neg hkf] at hy
              rw [List.mem_singleton.mp hy]
              simp only [RNode.pfx_mk]
              intro hh
              have := congrArg List.length hh
              simp only [List.length_drop, List.length_nil] at this
              have hklt : commonPrefix (b :: rest) c.pfx < (b :: rest).length :=
                lt_of_le_of_ne hkq hkf
              omega
        · intro y hy
          rcases List.mem_append.mp hy with hy | hy
          · rw [List.mem_singleton.mp hy]
            simp only [RNode.route_mk, RNode.children_mk]
            exact hbig c hcmem
          · by_cases hkf : commonPrefix (b :: rest) c.pfx = (b :: rest).length
            · rw [if_pos hkf] at hy
              cases hy
            · rw [if_neg hkf] at hy
              rw [List.mem_singleton.mp hy]
              intro hcr
              cases hcr
        · intro y hy
          rcases List.mem_append.mp hy with hy | hy
          · rw [List.mem_singleton.mp hy]
            exact strongInv_remk hsinv _ _
          · by_cases hkf : commonPrefix (b :: rest) c.pfx = (b :: rest).length
            · rw [if_pos hkf] at hy
              cases hy
            · rw [if_neg hkf] at hy
              rw [List.mem_singleton.mp hy]
              exact strongInv_leaf _ _
        · by_cases hkf : commonPrefix (b :: rest) c.pfx = (b :: rest).length
          · rw [if_pos hkf]
            simp
          · rw [if_neg hkf]
            have hklt : commonPrefix (b :: rest) c.pfx < (b :: rest).length :=
              lt_of_le_of_ne hkq hkf
            have hdis2 := commonPrefix_disagree (b :: rest) c.pfx
              (by omega) (by omega)
            simp only [List.map_append, List.map_cons, List.map_nil,
              RNode.pfx_mk]
            apply List.pairwise_append.mpr
            refine ⟨by simp, by simp, ?_⟩
            intro x hx y hy
            simp only [List.mem_singleton] at hx hy
            subst hx
            subst hy
            exact fun hh => hdis2 hh.symm
      · exact hrec x hx
    · rw [setChild_map_head (by simp only [RNode.pfx_mk]; exact hshead)]
      exact hdis

theorem removeNodeGo_pfx (n : RNode) (q : Str) :
    (removeNodeGo n q).1.pfx = n.pfx := by
  cases n with
  | mk p r cs =>
    cases q with
    | nil =>
      cases r with
      | none => rw [removeNodeGo_nil_none]
      | some r0 =>
        rw [removeNodeGo_nil_some]
        rfl
    | cons b rest =>
      cases hsp : splitChild cs b with
      | none => rw [removeNodeGo_cons_nosplit p r rest hsp]
      | some v =>
        obtain ⟨l, c, rs⟩ := v
        rw [removeNodeGo_cons_split p r rest hsp]
        split
        · split <;> rfl
        · rfl

theorem compactChild_facts {d : RNode} (hinv : StrongInv d) (hpne : d.pfx ≠ []) :
    ∀ x ∈ compactChild d,
      x.pfx.head? = d.pfx.head? ∧ x.pfx ≠ [] ∧
      (x.route = none → 2 ≤ x.children.length) ∧ StrongInv x := by
  cases d with
  | mk dp dr dc =>
    obtain ⟨hne, hbig, hrec, hdis⟩ := strongInv_destruct hinv
    simp only [RNode.pfx_mk] at hpne
    intro x hx
    cases dr with
    | some r0 =>
      simp only [compactChild, RNode.route_mk, List.mem_singleton] at hx
      subst hx
      refine ⟨rfl, hpne, ?_, hinv⟩
      intro hc
      rw [RNode.route_mk] at hc
      cases hc
    | none =>
      cases dc with
      | nil => simp [compactChild] at hx
      | cons d0 ds =>
        cases ds with
        | nil =>
          have h0 : d0 ∈ [d0] := List.mem_singleton.mpr rfl
          simp only [compactChild, RNode.route_mk, RNode.children_mk,
            List.mem_singleton] at hx
          subst hx
          refine ⟨?_, ?_, ?_, ?_⟩
          · simp only [RNode.pfx_mk]
            cases dp with
            | nil => exact absurd rfl hpne
            | cons a as => rfl
          · simp only [RNode.pfx_mk]
            intro hh
            exact hpne (List.append_eq_nil.mp hh).1
          · simp only [RNode.route_mk, RNode.children_mk]
            exact hbig d0 h0
          · exact strongInv_remk (hrec d0 h0) _ _
        | cons d1 ds2 =>
          simp only [compactChild, RNode.route_mk, RNode.children_mk,
            List.mem_singleton] at hx
          subst hx
          refine ⟨rfl, hpne, ?_, hinv⟩
          intro _
          simp

theorem compactChild_heads (d : RNode) (hpne : d.pfx ≠ []) :
    (compactChild d).map (fun x => x.pfx.head?) = [] ∨
    (compactChild d).map (fun x => x.pfx.head?) = [d.pfx.head?] := by
  cases d with
  | mk dp dr dc =>
    simp only [RNode.pfx_mk] at hpne
    cases dr with
    | some r0 => exact Or.inr (by simp [compactChild])
    | none =>
      cases dc with
      | nil => exact Or.inl (by simp [compactChild])
      | cons d0 ds =>
        cases ds with
        | nil =>
          refine Or.inr ?_
          simp only [compactChild, RNode.route_mk, RNode.children_mk,
            List.map_cons, List.map_nil, RNode.pfx_mk]
          cases dp with
          | nil => exact absurd rfl hpne
          | cons a as => rfl
        | cons d1 ds2 => exact Or.inr (by simp [compactChild])

theorem strongInv_removeNodeGo (n : RNode) (q : Str) (h : StrongInv n) :
    StrongInv (removeNodeGo n q).1 := by
  induction n, q using removeNodeGo.induct with
  | case1 npfx cs r =>
    rw [removeNodeGo_nil_some]
    exact strongInv_remk h _ _
  | case2 npfx cs =>
    rw [removeNodeGo_nil_none]
    exact h
  | case3 npfx nroute cs b rest hsp =>
    rw [removeNodeGo_cons_nosplit npfx nroute rest hsp]
    exact h
  | case4 npfx nroute cs b rest l c rs hsp hpre res hres ih =>
    rw [removeNodeGo_cons_split npfx nroute rest hsp, if_pos hpre]
    have hres2 : (removeNodeGo c ((b :: rest).drop c.pfx.length)).2 = true := hres
    rw [if_pos hres2]
    obtain ⟨hne, hbig, hrec, hdis⟩ := strongInv_destruct h
    obtain ⟨hdecomp, hlhead⟩ := splitChild_decomp hsp
    have hcmem : c ∈ cs := by
      rw [hdecomp]
      exact List.mem_append.mpr (Or.inr (List.mem_cons_self _ _))
    have hcpne : c.pfx ≠ [] := hne c hcmem
    have hd := ih (hrec c hcmem)
    have hdpfx : (removeNodeGo c ((b :: rest).drop c.pfx.length)).1.pfx = c.pfx :=
      removeNodeGo_pfx _ _
    have hfacts := compactChild_facts hd (by rw [hdpfx]; exact hcpne)
    apply StrongInv.node
    · intro x hx
      rcases List.mem_append.mp hx with hx | hx
      · rcases List.mem_append.mp hx with hx | hx
        · exact hne x (by rw [hdecomp]; exact List.mem_append.mpr (Or.inl hx))
        · exact (hfacts x hx).2.1
      · exact hne x (by
          rw [hdecomp]
          exact List.mem_append.mpr (Or.inr (List.mem_cons_of_mem _ hx)))
    · intro x hx
      rcases List.mem_append.mp hx with hx | hx
      · rcases List.mem_append.mp hx with hx | hx
        · exact hbig x (by rw [hdecomp]; exact List.mem_append.mpr (Or.inl hx))
        · exact (hfacts x hx).2.2.1
      · exact hbig x (by
          rw [hdecomp]
          exact List.mem_append.mpr (Or.inr (List.mem_cons_of_mem _ hx)))
    · intro x hx
      rcases List.mem_append.mp hx with hx | hx
      · rcases List.mem_append.mp hx with hx | hx
        · exact hrec x (by rw [hdecomp]; exact List.mem_append.mpr (Or.inl hx))
        · exact (hfacts x hx).2.2.2
      · exact hrec x (by
          rw [hdecomp]
          exact List.mem_append.mpr (Or.inr (List.mem_cons_of_mem _ hx)))
    · rw [hdecomp] at hdis
      rw [List.map_append, List.map_cons] at hdis
      have hh := compactChild_heads (removeNodeGo c ((b :: rest).drop c.pfx.length)).1
        (by rw [hdpfx]; exact hcpne)
      rw [hdpfx] at hh
      rcases hh with hh | hh
      · rw [List.map_append, List.map_append, hh, List.append_nil]
        have hsub : List.Sublist
            ((l.map fun x => x.pfx.head?) ++ (rs.map fun x => x.pfx.head?))
            ((l.map fun x => x.pfx.head?)
              ++ (c.pfx.head? :: rs.map fun x => x.pfx.head?)) :=
          List.Sublist.append (List.Sublist.refl _) (List.sublist_cons_self _ _)
        exact List.Pairwise.sublist hsub hdis
      · rw [List.map_append, List.map_append, hh]
        rw [List.append_assoc, List.singleton_append]
        exact hdis
  | case5 npfx nroute cs b rest l c rs hsp hpre res hres ih =>
    rw [removeNodeGo_cons_split npfx nroute rest hsp, if_pos hpre]
    have hres2 : ¬ (removeNodeGo c ((b :: rest).drop c.pfx.length)).2 = true := hres
    rw [if_neg hres2]
    exact h
  | case6 npfx nroute cs b rest l c rs hsp hpre =>
    rw [removeNodeGo_cons_split npfx nroute rest hsp, if_neg hpre]
    exact h

/-- C9: after every finite sequence of insert and remove operations on a
host's radix tree starting from the empty root node, the structural
invariant holds at every node: children have non-empty prefixes with
pairwise distinct first bytes (i), and every non-root route-less node has
at least two children (ii), which in particular rules out route-less
leaves (iii). -/
theorem C9_radix_invariants (ops : List TreeOp) :
    StrongInv (applyOps (RNode.mk [] none []) ops) := by
  suffices hstep : ∀ n, StrongInv n → StrongInv (applyOps n ops) from
    hstep _ (strongInv_leaf [] none)
  induction ops with
  | nil =>
    intro n hn
    exact hn
  | cons op ops2 ih =>
    intro n hn
    have hone : StrongInv (applyOp n op) := by
      cases op with
      | ins q r => exact strongInv_insertN _ q r hn
      | del q => exact strongInv_removeNodeGo _ q hn
    exact ih _ hone

theorem mem_removeKey {xs : List (Str × CacheEntry)} {k : Str}
    {x : Str × CacheEntry} (h : x ∈ removeKey xs k) : x ∈ xs := by
  induction xs with
  | nil => simpa [removeKey] using h
  | cons kv rest ih =>
    rw [removeKey] at h
    by_cases hk : kv.1 = k
    · rw [if_pos hk] at h
      exact List.mem_cons_of_mem _ h
    · rw [if_neg hk] at h
      rcases List.mem_cons.mp h with h | h
      · exact h ▸ List.mem_cons_self _ _
      · exact List.mem_cons_of_mem _ (ih h)

theorem lookupKey_mem {xs : List (Str × CacheEntry)} {k : Str} {e : CacheEntry}
    (h : lookupKey xs k = some e) : (k, e) ∈ xs := by
  unfold lookupKey at h
  cases hf : xs.find? (fun kv => kv.1 = k) with
  | none =>
    rw [hf] at h
    cases h
  | some kv0 =>
    rw [hf] at h
    simp only [Option.some.injEq] at h
    have hmem := List.mem_of_find?_eq_some hf
    have hk : kv0.1 = k := by
      have := List.find?_some hf
      simpa using this
    subst h
    rw [← hk]
    exact hmem

theorem LruCache.mem_put {c : LruCache} {k : Str} {v : CacheEntry}
    {x : Str × CacheEntry} (h : x ∈ (c.put k v).items) :
    x = (k, v) ∨ x ∈ c.items := by
  unfold LruCache.put at h
  cases hlk : lookupKey c.items k with
  | some e =>
    rw [hlk] at h
    rcases List.mem_cons.mp h with h | h
    · exact Or.inl h
    · exact Or.inr (mem_removeKey h)
  | none =>
    rw [hlk] at h
    simp only at h
    by_cases hcap : c.capacity < ((k, v) :: c.items).length
    · rw [if_pos hcap] at h
      have h2 : x ∈ (k, v) :: c.items :=
        List.Sublist.mem h (List.dropLast_sublist _)
      exact List.mem_cons.mp h2
    · rw [if_neg hcap] at h
      exact List.mem_cons.mp h

theorem cacheKeyOf_inj {h1 h2 p1 p2 : Str} (hc1 : ':' ∉ h1) (hc2 : ':' ∉ h2)
    (he : cacheKeyOf h1 p1 = cacheKeyOf h2 p2) : h1 = h2 ∧ p1 = p2 := by
  induction h1 generalizing h2 with
  | nil =>
    cases h2 with
    | nil =>
      unfold cacheKeyOf at he
      simp only [List.nil_append, List.cons.injEq] at he
      exact ⟨rfl, he.2⟩
    | cons c t2 =>
      unfold cacheKeyOf at he
      simp only [List.nil_append, List.cons_append, List.cons.injEq] at he
      exact absurd (he.1 ▸ List.mem_cons_self c t2) hc2
  | cons a t1 ih =>
    cases h2 with
    | nil =>
      unfold cacheKeyOf at he
      simp only [List.nil_append, List.cons_append, List.cons.injEq] at he
      exact absurd (he.1 ▸ List.mem_cons_self a t1) hc1
    | cons c t2 =>
      unfold cacheKeyOf at he
      simp only [List.cons_append, List.cons.injEq] at he
      obtain ⟨hac, he2⟩ := he
      have hr := ih (fun hm => hc1 (List.mem_cons_of_mem _ hm))
        (fun hm => hc2 (List.mem_cons_of_mem _ hm)) he2
      exact ⟨by rw [hac, hr.1], hr.2⟩

/-- Coherence of the LRU cache with the radix trees: every cached entry,
read back through any decomposition of its key into a colon-free host and
a path, agrees with what the radix descent computes. -/
def CacheOK (t : RouteTable) : Prop :=
  ∀ kv ∈ t.cache.items, ∀ host path : Str, ':' ∉ host →
    kv.1 = cacheKeyOf host path →
    pureLookup t host path = (kv.2.route, kv.2.remaining)

theorem cacheOK_of_empty {t : RouteTable} (h : t.cache.items = []) :
    CacheOK t := by
  intro kv hkv
  rw [h] at hkv
  cases hkv

theorem lookupT_correct (t : RouteTable) (host path : Str)
    (hOK : CacheOK t) (hcf : ':' ∉ host) :
    (t.lookupT host path).1 = pureLookup t host path ∧
    (t.lookupT host path).2.hosts = t.hosts ∧
    CacheOK (t.lookupT host path).2 := by
  cases hlk : lookupKey t.cache.items (cacheKeyOf host path) with
  | some e =>
    have hget : t.cache.get (cacheKeyOf host path) =
        (some e, { t.cache with
          items := (cacheKeyOf host path, e) ::
            removeKey t.cache.items (cacheKeyOf host path) }) := by
      unfold LruCache.get
      rw [hlk]
    have hmem : (cacheKeyOf host path, e) ∈ t.cache.items := lookupKey_mem hlk
    unfold RouteTable.lookupT
    simp only [hget]
    refine ⟨(hOK _ hmem host path hcf rfl).symm, by trivial, ?_⟩
    intro kv hkv host2 path2 hcf2 hdec
    simp only at hkv
    rcases List.mem_cons.mp hkv with hkv | hkv
    · subst hkv
      exact hOK _ hmem host2 path2 hcf2 hdec
    · exact hOK kv (mem_removeKey hkv) host2 path2 hcf2 hdec
  | none =>
    have hget : t.cache.get (cacheKeyOf host path) = (none, t.cache) := by
      unfold LruCache.get
      rw [hlk]
    unfold RouteTable.lookupT
    simp only [hget]
    cases hpl : pureLookup t host path with
    | mk f s =>
      cases f with
      | none => exact ⟨rfl, rfl, hOK⟩
      | some r =>
        refine ⟨rfl, rfl, ?_⟩
        intro kv hkv host2 path2 hcf2 hdec
        simp only at hkv
        rcases LruCache.mem_put hkv with hkv | hkv
        · subst hkv
          obtain ⟨hh, hp⟩ := cacheKeyOf_inj hcf hcf2 hdec
          subst hh
          subst hp
          exact hpl
        · exact hOK kv hkv host2 path2 hcf2 hdec

theorem insertT_clears (t : RouteTable) (r : StaticRoute) :
    (t.insertT r).cache.items = [] := rfl

/-- A route under host `"a:b"` with prefix `"/"`, whose cache key for path
`"/x"` collides with the key of host `"a"`, path `"b:/x"`. -/
def c3route : StaticRoute :=
  { ID := 1, Host := ['a', ':', 'b'], PathPrefix := ['/'], Target := [],
    StripPrefix := false, Priority := 0 }

/-- The table holding `c3route` after one lookup for host `"a:b"`, path
`"/x"` populated the LRU cache. -/
def c3table : RouteTable :=
  ((buildTable [c3route]).lookupT ['a', ':', 'b'] ['/', 'x']).2

theorem removeT_cache (t : RouteTable) (host pre : Str) :
    ((t.removeT host pre).2 = true → (t.removeT host pre).1.cache.items = []) ∧
    ((t.removeT host pre).2 = false → (t.removeT host pre).1.cache = t.cache) := by
  unfold RouteTable.removeT
  cases hh : t.hosts host with
  | none => simp
  | some root =>
    simp only []
    cases hb : (removeNodeGo root pre).2 <;> simp [hb, LruCache.clear]

/-- C3 (amended): every insert empties the LRU cache; a remove that
actually deletes a route empties it, while an unsuccessful remove leaves
it unchanged; a table with an empty cache is cache-coherent; and on a
cache-coherent table every lookup whose host contains no colon returns
exactly the radix-descent result (whether answered from the cache or
not), leaves the trees unchanged and preserves coherence — hence any
sequence of colon-free lookups with no intervening mutation agrees with
uncached descent. The colon-free condition is the amendment: the cache
key `host + ":" + path` is ambiguous for hosts containing `':'`, and the
original unconditional claim fails (see the counterexample). -/
theorem C3_lru_cache_consistency :
    (∀ (t : RouteTable) (r : StaticRoute), (t.insertT r).cache.items = []) ∧
    (∀ (t : RouteTable) (host pre : Str),
      ((t.removeT host pre).2 = true →
        (t.removeT host pre).1.cache.items = []) ∧
      ((t.removeT host pre).2 = false →
        (t.removeT host pre).1.cache = t.cache)) ∧
    (∀ t : RouteTable, t.cache.items = [] → CacheOK t) ∧
    (∀ (t : RouteTable) (host path : Str), CacheOK t → ':' ∉ host →
      (t.lookupT host path).1 = pureLookup t host path ∧
      (t.lookupT host path).2.hosts = t.hosts ∧
      CacheOK (t.lookupT host path).2) :=
  ⟨insertT_clears, removeT_cache, fun _ h => cacheOK_of_empty h, lookupT_correct⟩

unseal insertN lookupStep in
/-- C3 counterexample to the original claim: with the single route
`c3route` (host `"a:b"`, prefix `"/"`) and the cache populated by the
lookup of host `"a:b"`, path `"/x"`, the lookup of host `"a"`, path
`"b:/x"` is answered from the cache with that route and remainder `"x"`,
while the radix descent for the same query finds no tree for host `"a"`
and returns no route with the path unchanged. -/
theorem C3_counterexample :
    (c3table.lookupT ['a'] ['b', ':', '/', 'x']).1 = (some c3route, ['x']) ∧
    pureLookup c3table ['a'] ['b', ':', '/', 'x']
      = (none, ['b', ':', '/', 'x']) ∧
    (c3table.lookupT ['a'] ['b', ':', '/', 'x']).1
      ≠ pureLookup c3table ['a'] ['b', ':', '/', 'x'] := by
  refine ⟨by decide, by decide, ?_⟩
  intro hh
  rw [show (c3table.lookupT ['a'] ['b', ':', '/', 'x']).1
      = (some c3route, ['x']) by decide,
    show pureLookup c3table ['a'] ['b', ':', '/', 'x']
      = (none, ['b', ':', '/', 'x']) by decide] at hh
  cases hh

unseal insertN lookupStep in
/-- C3 witness: on the concrete one-route table for the colon-free host
`"a"`, after one lookup populated the cache the repeated lookup is
answered from the non-empty cache and still equals the radix descent. -/
theorem C3_witness :
    (let r0 : StaticRoute :=
      { ID := 1, Host := ['a'], PathPrefix := ['/'], Target := [],
        StripPrefix := false, Priority := 0 }
    let t1 := ((buildTable [r0]).lookupT ['a'] ['/', 'x']).2
    t1.cache.items ≠ [] ∧
      (t1.lookupT ['a'] ['/', 'x']).1 = pureLookup t1 ['a'] ['/', 'x']) := by
  refine ⟨by decide, ?_⟩
  have h0 : CacheOK (buildTable
      [({ ID := 1, Host := ['a'], PathPrefix := ['/'], Target := [],
          StripPrefix := false, Priority := 0 } : StaticRoute)]) :=
    C3_lru_cache_consistency.2.2.1 _ rfl
  have h1 := C3_lru_cache_consistency.2.2.2 _ ['a'] ['/', 'x'] h0 (by decide)
  have h2 := C3_lru_cache_consistency.2.2.2 _ ['a'] ['/', 'x'] h1.2.2
    (by decide)
  exact h2.1

theorem length_splitOn_count (l : Str) :
    (l.splitOn '.').length = l.count '.' + 1 := by
  induction l with
  | nil => rfl
  | cons a as ih =>
    simp only [List.splitOn] at ih ⊢
    rw [List.splitOnP_cons]
    by_cases ha : a = '.'
    · subst ha
      simp [List.count_cons, ih]
    · simp [ha, List.count_cons, ih]

theorem findIdx?_cons_eq (p : Char → Bool) (a : Char) (as : List Char)
    (s : Nat) :
    List.findIdx? p (a :: as) s
      = if p a then some s else List.findIdx? p as (s + 1) := rfl

theorem findIdx_take_dot (l : Str) : ∀ s : Nat,
    (List.findIdx? (fun c => c = '.') l s = none →
      l.count '.' = 0 ∧ l.takeWhile (fun c => c ≠ '.') = l) ∧
    (∀ i, List.findIdx? (fun c => c = '.') l s = some i →
      l.take (i - s) = l.takeWhile (fun c => c ≠ '.') ∧
      (s < i ↔ l.takeWhile (fun c => c ≠ '.') ≠ []) ∧
      s ≤ i ∧ 0 < l.count '.') := by
  induction l with
  | nil =>
    intro s
    refine ⟨fun _ => ⟨rfl, rfl⟩, fun i hi => ?_⟩
    simp [List.findIdx?] at hi
  | cons a as ih =>
    intro s
    by_cases ha : a = '.'
    · constructor
      · intro hn
        rw [findIdx?_cons_eq, if_pos (by simp [ha])] at hn
        cases hn
      · intro i hi
        rw [findIdx?_cons_eq, if_pos (by simp [ha])] at hi
        have hsi : s = i := by
          injection hi
        subst hsi
        refine ⟨?_, ?_, le_refl s, ?_⟩
        · rw [Nat.sub_self]
          simp [List.takeWhile_cons, ha]
        · simp [List.takeWhile_cons, ha]
        · simp [List.count_cons, ha]
    · constructor
      · intro hn
        rw [findIdx?_cons_eq, if_neg (by simp [ha])] at hn
        obtain ⟨h1, h2⟩ := (ih (s + 1)).1 hn
        exact ⟨by simp [List.count_cons, ha, h1],
          by rw [List.takeWhile_cons, if_pos (by simp [ha]), h2]⟩
      · intro i hi
        rw [findIdx?_cons_eq, if_neg (by simp [ha])] at hi
        obtain ⟨h1, h2, h3, h4⟩ := (ih (s + 1)).2 i hi
        refine ⟨?_, ?_, by omega, ?_⟩
        · have hk : i - s = (i - (s + 1)) + 1 := by omega
          rw [hk, List.take_succ_cons, h1]
          simp [List.takeWhile_cons, ha]
        · constructor
          · intro _
            simp [List.takeWhile_cons, ha]
          · intro _
            omega
        · simp only [List.count_cons]
          omega

theorem extractContainerID_spec (h : Str) :
    extractContainerID h =
      if 2 ≤ h.count '.' ∧ h.takeWhile (fun c => c ≠ '.') ≠ [] then
        h.takeWhile (fun c => c ≠ '.')
      else [] := by
  unfold extractContainerID
  cases hf : h.findIdx? (fun c => c = '.') with
  | none =>
    obtain ⟨h1, _⟩ := (findIdx_take_dot h 0).1 hf
    simp [h1]
  | some i =>
    obtain ⟨h1, h2, h3, h4⟩ := (findIdx_take_dot h 0).2 i hf
    rw [Nat.sub_zero] at h1
    by_cases hc : 2 ≤ h.count '.'
    · by_cases hi : 0 < i
      · have hcond : ¬(h.count '.' < 2 ∨ (i : Int) ≤ 0) := by
          push_neg
          exact ⟨hc, by exact_mod_cast hi⟩
        rw [if_neg hcond, if_pos ⟨hc, h2.mp hi⟩]
        simpa using h1
      · have hi0 : i = 0 := by omega
        subst hi0
        rw [if_pos (Or.inr (by norm_num))]
        have hfl : h.takeWhile (fun c => c ≠ '.') = [] := by
          by_contra hne
          exact hi (h2.mpr hne)
        rw [if_neg (fun hcc => hcc.2 hfl)]
    · rw [if_pos (Or.inl (by omega)), if_neg (fun hcc => hc hcc.1)]

theorem resolveHTTP_cases (cache : Str → Option Container) (h : Str) (p : Int) :
    ResolveHTTP cache h p =
      if 2 ≤ h.count '.' ∧ h.takeWhile (fun c => c ≠ '.') ≠ [] then
        match cache (h.takeWhile (fun c => c ≠ '.')) with
        | none => .error .notFound
        | some c =>
          if c.ExternalIP ≠ [] ∧ c.Status = runningStr then
            match c.PortMap p with
            | none => .error .protocolBlocked
            | some tp => .ok (c, tp)
          else .error .notFound
      else .error .notFound := by
  unfold ResolveHTTP ResolveByHostname Resolve
  rw [extractContainerID_spec]
  by_cases hcond : 2 ≤ h.count '.' ∧ h.takeWhile (fun c => c ≠ '.') ≠ []
  · rw [if_pos hcond, if_pos hcond, if_neg hcond.2]
    cases hca : cache (h.takeWhile (fun c => c ≠ '.')) with
    | none => rfl
    | some c =>
      by_cases hok : c.ExternalIP ≠ [] ∧ c.Status = runningStr
      · simp only [if_pos hok]
      · simp only [if_neg hok]
  · rw [if_neg hcond, if_neg hcond, if_pos rfl]

/-- C4: `ResolveHTTP(h, p)` succeeds with `(c, tp)` exactly when `h` has
at least three dot-separated labels, the first label is non-empty and is
a cached container with status "running" and a non-empty external IP,
and `p` is mapped by its port map to `tp`; fewer than three labels give
`NotFound`, and a resolvable container whose port map lacks `p` gives
`ProtocolBlocked`. -/
theorem C4_resolve_http (cache : Str → Option Container) (h : Str) (p : Int) :
    (∀ c tp, ResolveHTTP cache h p = .ok (c, tp) ↔
      (3 ≤ (h.splitOn '.').length ∧
       h.takeWhile (fun x => x ≠ '.') ≠ [] ∧
       cache (h.takeWhile (fun x => x ≠ '.')) = some c ∧
       c.Status = runningStr ∧ c.ExternalIP ≠ [] ∧
       c.PortMap p = some tp)) ∧
    ((h.splitOn '.').length < 3 → ResolveHTTP cache h p = .error .notFound) ∧
    (∀ c, 3 ≤ (h.splitOn '.').length →
      h.takeWhile (fun x => x ≠ '.') ≠ [] →
      cache (h.takeWhile (fun x => x ≠ '.')) = some c →
      c.Status = runningStr → c.ExternalIP ≠ [] → c.PortMap p = none →
      ResolveHTTP cache h p = .error .protocolBlocked) := by
  rw [length_splitOn_count]
  refine ⟨?_, ?_, ?_⟩
  · intro c tp
    rw [resolveHTTP_cases]
    constructor
    · intro h1
      by_cases hcond : 2 ≤ h.count '.' ∧ h.takeWhile (fun x => x ≠ '.') ≠ []
      · rw [if_pos hcond] at h1
        cases hca : cache (h.takeWhile (fun x => x ≠ '.')) with
        | none =>
          rw [hca] at h1
          cases h1
        | some c2 =>
          rw [hca] at h1
          have h1b : (if c2.ExternalIP ≠ [] ∧ c2.Status = runningStr then
              (match c2.PortMap p with
               | none => Except.error RouterErr.protocolBlocked
               | some tp2 => Except.ok (c2, tp2))
            else Except.error RouterErr.notFound) = Except.ok (c, tp) := h1
          by_cases hok : c2.ExternalIP ≠ [] ∧ c2.Status = runningStr
          · rw [if_pos hok] at h1b
            cases hpm : c2.PortMap p with
            | none =>
              rw [hpm] at h1b
              cases h1b
            | some tp2 =>
              rw [hpm] at h1b
              simp only [Except.ok.injEq, Prod.mk.injEq] at h1b
              obtain ⟨hc2, htp2⟩ := h1b
              subst hc2
              subst htp2
              exact ⟨by omega, hcond.2, rfl, hok.2, hok.1, hpm⟩
          · rw [if_neg hok] at h1b
            cases h1b
      · rw [if_neg hcond] at h1
        cases h1
    · rintro ⟨hl, hfl, hca, hst, hip, hpm⟩
      rw [if_pos ⟨by omega, hfl⟩, hca]
      show (if c.ExternalIP ≠ [] ∧ c.Status = runningStr then
          (match c.PortMap p with
           | none => Except.error RouterErr.protocolBlocked
           | some tp2 => Except.ok (c, tp2))
        else Except.error RouterErr.notFound) = Except.ok (c, tp)
      rw [if_pos ⟨hip, hst⟩, hpm]
  · intro hl
    rw [resolveHTTP_cases,
      if_neg (fun hcc : 2 ≤ h.count '.' ∧ _ => by omega)]
  · intro c hl hfl hca hst hip hpm
    rw [resolveHTTP_cases, if_pos ⟨by omega, hfl⟩, hca]
    show (if c.ExternalIP ≠ [] ∧ c.Status = runningStr then
        (match c.PortMap p with
         | none => Except.error RouterErr.protocolBlocked
         | some tp2 => Except.ok (c, tp2))
      else Except.error RouterErr.notFound) = Except.error RouterErr.protocolBlocked
    rw [if_pos ⟨hip, hst⟩, hpm]

/-- The container used to witness C4. -/
def c4cont : Container :=
  { ID := ['a'], Namespace := [], ExternalIP := ['1'], Status := runningStr,
    SSHEnabled := false, HTTPSEnabled := false,
    PortMap := fun q => if q = 80 then some 8080 else none }

/-- The container cache used to witness C4. -/
def c4cache : Str → Option Container :=
  fun s => if s = ['a'] then some c4cont else none

/-- C4 witness: on the concrete cache holding the running container `a`,
the hostname `a.b.c` with port 80 resolves to `(c4cont, 8080)`, the
hostname `b.c` yields NotFound, and port 81 yields ProtocolBlocked. -/
theorem C4_witness :
    ResolveHTTP c4cache ['a', '.', 'b', '.', 'c'] 80 = .ok (c4cont, 8080) ∧
    ResolveHTTP c4cache ['b', '.', 'c'] 80 = .error .notFound ∧
    ResolveHTTP c4cache ['a', '.', 'b', '.', 'c'] 81
      = .error .protocolBlocked := by
  refine ⟨?_, ?_, ?_⟩
  · exact ((C4_resolve_http c4cache ['a', '.', 'b', '.', 'c'] 80).1 c4cont
      8080).mpr ⟨by decide, by decide, by simp [c4cache], rfl, by decide, rfl⟩
  · exact (C4_resolve_http c4cache ['b', '.', 'c'] 80).2.1 (by decide)
  · exact (C4_resolve_http c4cache ['a', '.', 'b', '.', 'c'] 81).2.2 c4cont
      (by decide) (by decide) (by simp [c4cache]) rfl (by decide) rfl

theorem prefix4_iff (m buf : List Nat) (hm : m.length = 4) :
    m <+: buf ↔ 4 ≤ buf.length ∧ buf.take 4 = m := by
  rw [List.prefix_iff_eq_take, hm]
  constructor
  · intro h
    have hlen : (buf.take 4).length = 4 := by
      rw [← h, hm]
    rw [List.length_take] at hlen
    exact ⟨by omega, h.symm⟩
  · intro h
    exact h.2.symm

theorem isHTTPMethod_iff (buf : List Nat) :
    isHTTPMethod buf = true ↔ ∃ m ∈ httpMethods, m <+: buf := by
  have hlen4 : ∀ m ∈ httpMethods, m.length = 4 := by decide
  unfold isHTTPMethod
  by_cases hl : buf.length < 4
  · rw [if_pos hl]
    simp only [Bool.false_eq_true, false_iff]
    rintro ⟨m, hm, hpre⟩
    have h4 := ((prefix4_iff m buf (hlen4 m hm)).mp hpre).1
    omega
  · rw [if_neg hl]
    rw [List.any_eq_true]
    constructor
    · rintro ⟨m, hm, hp⟩
      refine ⟨m, hm, ?_⟩
      exact (prefix4_iff m buf (hlen4 m hm)).mpr ⟨by omega, by simpa using hp⟩
    · rintro ⟨m, hm, hp⟩
      exact ⟨m, hm, by simp [((prefix4_iff m buf (hlen4 m hm)).mp hp).2]⟩

/-- C5: the protocol classification of the peeked bytes is exact: it is
SSH iff the bytes begin with `"SSH-"`; otherwise TLS iff the first byte
is `0x16`; otherwise HTTP iff the first four bytes equal one of the nine
listed method strings; and the connection is closed iff none of these
hold — no partial or loose matching. -/
theorem C5_protocol_detection (buf : List Nat) :
    (classifyBytes buf = .ssh ↔ sshPrefix <+: buf) ∧
    (classifyBytes buf = .tls ↔
      ¬ sshPrefix <+: buf ∧ buf.head? = some 22) ∧
    (classifyBytes buf = .http ↔
      ¬ sshPrefix <+: buf ∧ buf.head? ≠ some 22 ∧
      ∃ m ∈ httpMethods, m <+: buf) ∧
    (classifyBytes buf = .closed ↔
      ¬ sshPrefix <+: buf ∧ buf.head? ≠ some 22 ∧
      ∀ m ∈ httpMethods, ¬ m <+: buf) := by
  have hssh : sshPrefix <+: buf ↔ 4 ≤ buf.length ∧ buf.take 4 = sshPrefix :=
    prefix4_iff _ _ rfl
  by_cases hA : 4 ≤ buf.length ∧ buf.take 4 = sshPrefix
  · have hcb : classifyBytes buf = .ssh := by
      rw [classifyBytes, if_pos hA]
    have hpre : sshPrefix <+: buf := hssh.mpr hA
    exact ⟨by simp [hcb, hpre], by simp [hcb, hpre], by simp [hcb, hpre],
      by simp [hcb, hpre]⟩
  · have hnp : ¬ sshPrefix <+: buf := fun hp => hA (hssh.mp hp)
    by_cases hB : buf.head? = some 22
    · have hcb : classifyBytes buf = .tls := by
        rw [classifyBytes, if_neg hA, if_pos hB]
      exact ⟨by simp [hcb, hnp], by simp [hcb, hnp, hB], by simp [hcb, hB],
        by simp [hcb, hB]⟩
    · by_cases hC : isHTTPMethod buf
      · have hcb : classifyBytes buf = .http := by
          rw [classifyBytes, if_neg hA, if_neg hB, if_pos hC]
        have hex : ∃ m ∈ httpMethods, m <+: buf := (isHTTPMethod_iff buf).mp hC
        refine ⟨by simp [hcb, hnp], by simp [hcb, hB],
          by simp [hcb, hnp, hB, hex], ?_⟩
        simp only [hcb]
        constructor
        · intro h
          cases h
        · rintro ⟨-, -, hall⟩
          obtain ⟨m, hm, hpm⟩ := hex
          exact absurd hpm (hall m hm)
      · have hcb : classifyBytes buf = .closed := by
          rw [classifyBytes, if_neg hA, if_neg hB, if_neg hC]
        have hnex : ¬ ∃ m ∈ httpMethods, m <+: buf :=
          fun he => hC ((isHTTPMethod_iff buf).mpr he)
        refine ⟨by simp [hcb, hnp], by simp [hcb, hB], ?_, ?_⟩
        · simp only [hcb]
          constructor
          · intro h
            cases h
          · rintro ⟨-, -, hex⟩
            exact absurd hex hnex
        · simp only [hcb]
          constructor
          · intro _
            refine ⟨hnp, hB, ?_⟩
            intro m hm hpm
            exact hnex ⟨m, hm, hpm⟩
          · intro _
            trivial

/-- C7 (amended): the plain-HTTP handler normalizes only `8080` to `80`
and uses every other local port as-is; it agrees with the normalization
claimed by the spec exactly for ports other than `8443` (the `8443` to
`443` mapping lives in the TLS handler, not the HTTP one). -/
theorem C7_http_ingress_port :
    (∀ p : Int, normalizeHTTPIngress p = specIngressNorm p ↔ p ≠ 8443) ∧
    normalizeHTTPIngress 8080 = 80 ∧ normalizeHTTPIngress 8443 = 8443 ∧
    normalizeTLSIngress 8443 = 443 := by
  refine ⟨?_, by decide, by decide, by decide⟩
  intro p
  unfold normalizeHTTPIngress specIngressNorm
  by_cases h1 : p = 8080
  · subst h1
    rw [if_pos rfl, if_pos rfl]
    exact ⟨fun _ => by decide, fun _ => rfl⟩
  · rw [if_neg h1, if_neg h1]
    by_cases h2 : p = 8443
    · subst h2
      rw [if_pos rfl]
      exact ⟨fun he => absurd he (by decide), fun hne => absurd rfl hne⟩
    · rw [if_neg h2]
      exact ⟨fun _ => h2, fun _ => rfl⟩

/-- C7 counterexample to the original claim: on local port `8443` the
plain-HTTP handler keeps `8443` while the spec demands `443`. -/
theorem C7_counterexample :
    normalizeHTTPIngress 8443 ≠ specIngressNorm 8443 := by decide

theorem lastIndexOf_of_not_mem {l : Str} {c : Char} (h : c ∉ l) :
    lastIndexOf l c = none := by
  induction l with
  | nil => rfl
  | cons a rest ih =>
    have hrest : c ∉ rest := fun hm => h (List.mem_cons_of_mem _ hm)
    have hac : ¬ a = c := fun he => h (he ▸ List.mem_cons_self _ _)
    rw [lastIndexOf, ih hrest, if_neg hac]

theorem lastIndexOf_append_cons {cid : Str} {c : Char} (tu : Str)
    (h : c ∉ cid) :
    lastIndexOf (tu ++ c :: cid) c = some tu.length := by
  induction tu with
  | nil =>
    rw [List.nil_append, lastIndexOf, lastIndexOf_of_not_mem h, if_pos rfl]
    rfl
  | cons a tu2 ih =>
    rw [List.cons_append, lastIndexOf, ih]
    rfl

theorem parseSSH_last_dot (tu cid : Str) (h : '.' ∉ cid) :
    parseSSHUsername (tu ++ '.' :: cid) = (tu, cid) := by
  unfold parseSSHUsername
  rw [lastIndexOf_append_cons tu h]
  have h1 : (tu ++ '.' :: cid).take tu.length = tu := List.take_left _ _
  have h2 : (tu ++ '.' :: cid).drop (tu.length + 1) = cid := by
    rw [← List.drop_drop, List.drop_left]
    rfl
  show ((tu ++ '.' :: cid).take tu.length,
      (tu ++ '.' :: cid).drop (tu.length + 1)) = (tu, cid)
  rw [h1, h2]

/-- C8: the SSH username is split on its last dot into target user and
container id (defaulting to target user "root" when it has no dot); the
gateway resolves the container id through the SSH gate, closes the
connection on any resolution failure, and on success dials
`lb.<namespace>.svc.cluster.local:22` as the target user. -/
theorem C8_ssh_routing (cache : Str → Option Container) (username : Str) :
    (∀ tu cid : Str, username = tu ++ '.' :: cid → '.' ∉ cid →
      parseSSHUsername username = (tu, cid)) ∧
    ('.' ∉ username → parseSSHUsername username = (rootStr, username)) ∧
    (∀ e, ResolveSSH cache (parseSSHUsername username).2 = .error e →
      sshDecision cache username = .closeConn) ∧
    (∀ c, ResolveSSH cache (parseSSHUsername username).2 = .ok c →
      sshDecision cache username =
        .dial (sshBackendAddr c.Namespace) (parseSSHUsername username).1) := by
  refine ⟨?_, ?_, ?_, ?_⟩
  · intro tu cid hu h
    rw [hu]
    exact parseSSH_last_dot tu cid h
  · intro h
    unfold parseSSHUsername
    rw [lastIndexOf_of_not_mem h]
  · intro e he
    unfold sshDecision
    simp only [he]
  · intro c hc
    unfold sshDecision
    simp only [hc]

/-- The container used to witness C8. -/
def c8cont : Container :=
  { ID := ['a', 'b', 'c'], Namespace := ['n', 's'],
    ExternalIP := ['1'], Status := runningStr,
    SSHEnabled := true, HTTPSEnabled := false, PortMap := fun _ => none }

/-- The container cache used to witness C8. -/
def c8cache : Str → Option Container :=
  fun s => if s = ['a', 'b', 'c'] then some c8cont else none

/-- C8 witness: username `dev.abc` splits at the last dot into
`(dev, abc)`; on the concrete cache the connection is dialed to
`lb.ns.svc.cluster.local:22` as `dev`; the unknown container id `zzz`
closes the connection; the dot-less username `abc` defaults to root. -/
theorem C8_witness :
    parseSSHUsername ['d', 'e', 'v', '.', 'a', 'b', 'c']
      = (['d', 'e', 'v'], ['a', 'b', 'c']) ∧
    parseSSHUsername ['a', 'b', 'c'] = (rootStr, ['a', 'b', 'c']) ∧
    sshDecision c8cache ['d', 'e', 'v', '.', 'a', 'b', 'c']
      = .dial (sshBackendAddr ['n', 's']) ['d', 'e', 'v'] ∧
    sshDecision c8cache ['z', 'z', 'z'] = .closeConn := by
  have h := C8_ssh_routing c8cache ['d', 'e', 'v', '.', 'a', 'b', 'c']
  have h1 : parseSSHUsername ['d', 'e', 'v', '.', 'a', 'b', 'c']
      = (['d', 'e', 'v'], ['a', 'b', 'c']) :=
    h.1 ['d', 'e', 'v'] ['a', 'b', 'c'] rfl (by decide)
  have h2 : parseSSHUsername ['a', 'b', 'c'] = (rootStr, ['a', 'b', 'c']) :=
    (C8_ssh_routing c8cache ['a', 'b', 'c']).2.1 (by decide)
  refine ⟨h1, h2, ?_, ?_⟩
  · have hr : ResolveSSH c8cache
        (parseSSHUsername ['d', 'e', 'v', '.', 'a', 'b', 'c']).2
        = .ok c8cont := by
      rw [h1]
      rfl
    have hd := h.2.2.2 c8cont hr
    rw [hd, h1]
    rfl
  · have h3 := C8_ssh_routing c8cache ['z', 'z', 'z']
    have hr : ResolveSSH c8cache (parseSSHUsername ['z', 'z', 'z']).2
        = .error .notFound := by
      have h4 : parseSSHUsername ['z', 'z', 'z'] = (rootStr, ['z', 'z', 'z']) :=
        h3.2.1 (by decide)
      rw [h4]
      rfl
    exact h3.2.2.1 RouterErr.notFound hr

theorem findIdx?_none_of_not_mem {l : Str} {ch : Char} (h : ch ∉ l) :
    ∀ s, List.findIdx? (fun c => c = ch) l s = none := by
  induction l with
  | nil => intro s; rfl
  | cons a rest ih =>
    intro s
    rw [findIdx?_cons_eq, if_neg (by
      simp only [decide_eq_true_eq]
      exact fun he => h (he ▸ List.mem_cons_self _ _))]
    exact ih (fun hm => h (List.mem_cons_of_mem _ hm)) (s + 1)

theorem replaceOnceGo_spec (pat rep : Str) (hpat : pat ≠ []) (s : Str) :
    ((¬ ∃ u v : Str, s = u ++ pat ++ v) → replaceOnceGo pat rep s = s) ∧
    (∀ u v : Str, s = u ++ pat ++ v →
      (∀ u2 v2 : Str, s = u2 ++ pat ++ v2 → u.length ≤ u2.length) →
      replaceOnceGo pat rep s = u ++ rep ++ v) := by
  induction s with
  | nil =>
    constructor
    · intro _
      rfl
    · intro u v h _
      exfalso
      have h2 : (u ++ pat) ++ v = [] := h.symm
      have h3 := List.append_eq_nil.mp h2
      have h4 := List.append_eq_nil.mp h3.1
      exact hpat h4.2
  | cons a rest ih =>
    by_cases hp : pat <+: (a :: rest)
    · constructor
      · intro hno
        exfalso
        obtain ⟨w, hw⟩ := hp
        exact hno ⟨[], w, by rw [← hw]; simp⟩
      · intro u v h hmin
        rw [replaceOnceGo, if_pos hp]
        obtain ⟨w, hw⟩ := hp
        have hu0 : u.length ≤ 0 := hmin [] w (by rw [← hw]; simp)
        have hu : u = [] := List.eq_nil_of_length_eq_zero (by omega)
        subst hu
        simp only [List.nil_append] at h
        simp [h, List.drop_left]
    · have hstep : replaceOnceGo pat rep (a :: rest)
          = a :: replaceOnceGo pat rep rest := by
        rw [replaceOnceGo, if_neg hp]
      constructor
      · intro hno
        rw [hstep, ih.1 (fun hex => ?_)]
        obtain ⟨u, v, hr⟩ := hex
        exact hno ⟨a :: u, v, by rw [hr]; simp⟩
      · intro u v h hmin
        cases u with
        | nil =>
          exfalso
          simp only [List.nil_append] at h
          exact hp ⟨v, h.symm⟩
        | cons b u2 =>
          injection h with h1 h2
          subst h1
          rw [hstep]
          have hre := ih.2 u2 v h2 (fun u3 v3 h3 => by
            have hm := hmin (a :: u3) v3 (by rw [h3]; simp)
            simpa using hm)
          rw [hre]
          simp

/-- C10 (amended): a header block with no newline is returned unchanged;
with a newline, the output is a rewritten request line followed by the
untouched bytes from the first newline on, where the rewritten line is
obtained by replacing the first space-delimited occurrence of the old
path and THEN, on that result, also the first occurrence followed by
`'?'` (both replacements can fire on one line — the spec's
"or, failing that" is not what the code does, see the counterexample);
each single replacement is leftmost-occurrence-only. -/
theorem C10_rewrite_request_path (headers oldPath newPath : Str) :
    ('\n' ∉ headers → rewriteRequestPath headers oldPath newPath = headers) ∧
    (∀ i, headers.findIdx? (fun c => c = '\n') = some i →
      rewriteRequestPath headers oldPath newPath =
        replaceOnce (replaceOnce (headers.take i)
            (' ' :: oldPath ++ [' ']) (' ' :: newPath ++ [' ']))
          (' ' :: oldPath ++ ['?']) (' ' :: newPath ++ ['?'])
        ++ headers.drop i) ∧
    (∀ s pat rep : Str, pat ≠ [] →
      ((¬ ∃ u v : Str, s = u ++ pat ++ v) → replaceOnce s pat rep = s) ∧
      (∀ u v : Str, s = u ++ pat ++ v →
        (∀ u2 v2 : Str, s = u2 ++ pat ++ v2 → u.length ≤ u2.length) →
        replaceOnce s pat rep = u ++ rep ++ v)) := by
  refine ⟨?_, ?_, ?_⟩
  · intro h
    unfold rewriteRequestPath
    rw [findIdx?_none_of_not_mem h 0]
  · intro i hi
    unfold rewriteRequestPath
    rw [hi]
  · intro s pat rep hpat
    have hgo := replaceOnceGo_spec pat rep hpat s
    unfold replaceOnce
    rw [if_neg hpat]
    exact hgo

/-- The header block `"GET /a /a?x HTTP/1.1\nH"` used for C10. -/
def c10headers : Str :=
  ['G', 'E', 'T', ' ', '/', 'a', ' ', '/', 'a', '?', 'x', ' ',
   'H', 'T', 'T', 'P', '/', '1', '.', '1', '\n', 'H']

/-- What the code produces for `c10headers` (both replacements fire). -/
def c10code : Str :=
  ['G', 'E', 'T', ' ', '/', 'b', ' ', '/', 'b', '?', 'x', ' ',
   'H', 'T', 'T', 'P', '/', '1', '.', '1', '\n', 'H']

/-- What the original claim predicts (only the space-delimited
occurrence replaced, the `'?'` fallback not taken). -/
def c10claim : Str :=
  ['G', 'E', 'T', ' ', '/', 'b', ' ', '/', 'a', '?', 'x', ' ',
   'H', 'T', 'T', 'P', '/', '1', '.', '1', '\n', 'H']

/-- C10 counterexample to the original claim: on a request line carrying
the old path both space-delimited and with a query string, the code
rewrites both occurrences, not only the space-delimited one. -/
theorem C10_counterexample :
    rewriteRequestPath c10headers ['/', 'a'] ['/', 'b'] = c10code ∧
    rewriteRequestPath c10headers ['/', 'a'] ['/', 'b'] ≠ c10claim := by
  exact ⟨by decide, by decide⟩

/-- C10 witness: a newline-free block is unchanged; with a newline the
suffix from the newline on is kept verbatim; a leftmost occurrence is
replaced. -/
theorem C10_witness :
    rewriteRequestPath ['G', 'E', 'T'] ['/', 'a'] ['/', 'b']
      = ['G', 'E', 'T'] ∧
    rewriteRequestPath ['A', '\n', 'B'] ['/', 'a'] ['/', 'b']
      = ['A', '\n', 'B'] ∧
    replaceOnce [' ', '/', 'a', ' ', 'x'] [' ', '/', 'a', ' ']
      [' ', '/', 'b', ' '] = [] ++ [' ', '/', 'b', ' '] ++ ['x'] := by
  refine ⟨?_, ?_, ?_⟩
  · exact (C10_rewrite_request_path ['G', 'E', 'T'] ['/', 'a'] ['/', 'b']).1
      (by decide)
  · have h := (C10_rewrite_request_path ['A', '\n', 'B'] ['/', 'a']
      ['/', 'b']).2.1 1 (by decide)
    rw [h]
    decide
  · exact ((C10_rewrite_request_path [] ['/', 'a'] ['/', 'b']).2.2
      [' ', '/', 'a', ' ', 'x'] [' ', '/', 'a', ' '] [' ', '/', 'b', ' ']
      (by decide)).2 [] ['x'] rfl (fun u2 v2 _ => Nat.zero_le _)

theorem be16_enc (n : Nat) : be16 (n / 256) (n % 256) = n := by
  unfold be16
  omega

theorem sniLoop_cons (t l1 l2 : Nat) (rest : List Nat) :
    sniLoop (t :: l1 :: l2 :: rest) =
      if rest.length < be16 l1 l2 then none
      else if t = 0 then
        if isValidHostname (rest.take (be16 l1 l2)) then
          some (rest.take (be16 l1 l2))
        else none
      else sniLoop (rest.drop (be16 l1 l2)) := by
  rw [sniLoop]

theorem extLoop_cons (t0 t1 d0 d1 : Nat) (rest : List Nat) :
    extLoop (t0 :: t1 :: d0 :: d1 :: rest) =
      if rest.length < be16 d0 d1 then none
      else if be16 t0 t1 = 0 then parseSNIExtension (rest.take (be16 d0 d1))
      else extLoop (rest.drop (be16 d0 d1)) := by
  rw [extLoop]

theorem parseSNIExtension_cons (d0 d1 : Nat) (rest : List Nat) :
    parseSNIExtension (d0 :: d1 :: rest) =
      if rest.length < be16 d0 d1 then none else sniLoop rest := rfl

theorem sniLoop_skip (pre : List (Nat × List Nat)) (tail : List Nat)
    (hpre : ∀ e ∈ pre, e.1 ≠ 0) :
    sniLoop (encSNIEntries pre ++ tail) = sniLoop tail := by
  induction pre with
  | nil => rw [encSNIEntries, List.nil_append]
  | cons e es ih =>
    rw [show encSNIEntries (e :: es) ++ tail
        = e.1 :: e.2.length / 256 :: e.2.length % 256 ::
          (e.2 ++ (encSNIEntries es ++ tail)) by
      simp [encSNIEntries, encSNIEntry, enc16]]
    rw [sniLoop_cons, be16_enc]
    rw [if_neg (by simp only [List.length_append]; omega)]
    rw [if_neg (hpre e (List.mem_cons_self _ _))]
    rw [List.drop_left]
    exact ih (fun x hx => hpre x (List.mem_cons_of_mem _ hx))

theorem sniLoop_hit (h : List Nat) :
    sniLoop (encSNIEntry 0 h) =
      if isValidHostname h then some h else none := by
  rw [show encSNIEntry 0 h = 0 :: h.length / 256 :: h.length % 256 :: h by
    simp [encSNIEntry, enc16]]
  rw [sniLoop_cons, be16_enc]
  rw [if_neg (by omega), if_pos rfl, List.take_length]

theorem parseSNI_mk (pre : List (Nat × List Nat)) (h : List Nat)
    (hpre : ∀ e ∈ pre, e.1 ≠ 0) :
    parseSNIExtension (mkSNIExtData pre h) =
      if isValidHostname h then some h else none := by
  rw [show mkSNIExtData pre h
      = (encSNIEntries pre ++ encSNIEntry 0 h).length / 256 ::
        (encSNIEntries pre ++ encSNIEntry 0 h).length % 256 ::
        (encSNIEntries pre ++ encSNIEntry 0 h) by
    simp [mkSNIExtData, enc16]]
  rw [parseSNIExtension_cons, be16_enc]
  rw [if_neg (by omega)]
  rw [sniLoop_skip pre _ hpre, sniLoop_hit]

theorem extLoop_skip (xs : List (Nat × List Nat)) (tail : List Nat)
    (hxs : ∀ e ∈ xs, e.1 ≠ 0) :
    extLoop (encExts xs ++ tail) = extLoop tail := by
  induction xs with
  | nil => rw [encExts, List.nil_append]
  | cons e es ih =>
    rw [show encExts (e :: es) ++ tail
        = e.1 / 256 :: e.1 % 256 :: e.2.length / 256 :: e.2.length % 256 ::
          (e.2 ++ (encExts es ++ tail)) by
      simp [encExts, encExt, enc16]]
    rw [extLoop_cons, be16_enc, be16_enc]
    rw [if_neg (by simp only [List.length_append]; omega)]
    rw [if_neg (hxs e (List.mem_cons_self _ _))]
    rw [List.drop_left]
    exact ih (fun x hx => hxs x (List.mem_cons_of_mem _ hx))

theorem extLoop_hit (d : List Nat) :
    extLoop (encExt 0 d) = parseSNIExtension d := by
  rw [show encExt 0 d
      = 0 / 256 :: 0 % 256 :: d.length / 256 :: d.length % 256 :: d by
    simp [encExt, enc16]]
  rw [extLoop_cons, be16_enc, be16_enc]
  rw [if_neg (by omega), if_pos rfl, List.take_length]

theorem extractSNI_shape (a b c : Nat) (ver rand sid ciphers comps exts : List Nat)
    (hv : ver.length = 2) (hr : rand.length = 32) :
    extractSNI (1 :: a :: b :: c :: (ver ++ (rand ++ (sid.length :: (sid ++
        (enc16 ciphers.length ++ (ciphers ++ (comps.length :: (comps ++
        (enc16 exts.length ++ exts))))))))))
      = extLoop exts := by
  unfold extractSNI
  rw [if_neg (by simp only [List.length_cons]; omega)]
  rw [if_neg (by simp)]
  have hd4 : ((1 : Nat) :: a :: b :: c :: (ver ++ (rand ++ (sid.length ::
      (sid ++ (enc16 ciphers.length ++ (ciphers ++ (comps.length ::
      (comps ++ (enc16 exts.length ++ exts)))))))))).drop 4
      = ver ++ (rand ++ (sid.length :: (sid ++ (enc16 ciphers.length ++
        (ciphers ++ (comps.length :: (comps ++
        (enc16 exts.length ++ exts)))))))) := rfl
  simp only [hd4]
  rw [if_neg (by
    simp only [List.length_append, List.length_cons, hv, hr]
    omega)]
  have hd34 : (ver ++ (rand ++ (sid.length :: (sid ++
      (enc16 ciphers.length ++ (ciphers ++ (comps.length :: (comps ++
      (enc16 exts.length ++ exts))))))))).drop 34
      = sid.length :: (sid ++ (enc16 ciphers.length ++ (ciphers ++
        (comps.length :: (comps ++ (enc16 exts.length ++ exts)))))) := by
    rw [← List.append_assoc]
    rw [show (34 : Nat) = (ver ++ rand).length by
      simp [List.length_append, hv, hr]]
    exact List.drop_left _ _
  simp only [hd34]
  rw [if_neg (by simp only [List.length_append, List.length_cons]; omega)]
  have hds : (sid ++ (enc16 ciphers.length ++ (ciphers ++ (comps.length ::
      (comps ++ (enc16 exts.length ++ exts)))))).drop sid.length
      = enc16 ciphers.length ++ (ciphers ++ (comps.length :: (comps ++
        (enc16 exts.length ++ exts)))) := List.drop_left _ _
  simp only [hds]
  rw [show enc16 ciphers.length ++ (ciphers ++ (comps.length :: (comps ++
      (enc16 exts.length ++ exts))))
      = ciphers.length / 256 :: ciphers.length % 256 ::
        (ciphers ++ (comps.length :: (comps ++
          (enc16 exts.length ++ exts)))) by simp [enc16]]
  simp only [be16_enc]
  rw [if_neg (by simp only [List.length_append, List.length_cons]; omega)]
  have hdc : (ciphers ++ (comps.length :: (comps ++
      (enc16 exts.length ++ exts)))).drop ciphers.length
      = comps.length :: (comps ++ (enc16 exts.length ++ exts)) :=
    List.drop_left _ _
  simp only [hdc]
  rw [if_neg (by simp only [List.length_append, List.length_cons]; omega)]
  have hdm : (comps ++ (enc16 exts.length ++ exts)).drop comps.length
      = enc16 exts.length ++ exts := List.drop_left _ _
  simp only [hdm]
  rw [show enc16 exts.length ++ exts
      = exts.length / 256 :: exts.length % 256 :: exts by simp [enc16]]
  simp only [be16_enc]
  rw [if_neg (by omega)]

theorem extractSNI_mk (ver rand sid ciphers comps : List Nat)
    (preExts pre : List (Nat × List Nat)) (h : List Nat)
    (hv : ver.length = 2) (hr : rand.length = 32)
    (hpx : ∀ e ∈ preExts, e.1 ≠ 0) (hpe : ∀ e ∈ pre, e.1 ≠ 0) :
    extractSNI (mkClientHello ver rand sid ciphers comps preExts pre h)
      = if isValidHostname h then some h else none := by
  rw [show mkClientHello ver rand sid ciphers comps preExts pre h
      = (let exts := encExts preExts ++ encExt 0 (mkSNIExtData pre h)
         let body := ver ++ (rand ++ (sid.length :: (sid ++
           (enc16 ciphers.length ++ (ciphers ++ (comps.length :: (comps ++
           (enc16 exts.length ++ exts))))))))
         1 :: body.length / 65536 :: body.length / 256 % 256 ::
           body.length % 256 :: body) from rfl]
  simp only []
  rw [extractSNI_shape _ _ _ ver rand sid ciphers comps _ hv hr]
  rw [extLoop_skip preExts _ hpx]
  rw [extLoop_hit, parseSNI_mk pre h hpe]

theorem sniLoop_sound_aux : ∀ (n : Nat) (d : List Nat), d.length ≤ n →
    ∀ h, sniLoop d = some h → isValidHostname h = true := by
  intro n
  induction n with
  | zero =>
    intro d hd h hs
    rw [List.eq_nil_of_length_eq_zero (Nat.le_zero.mp hd)] at hs
    rw [sniLoop] at hs
    · cases hs
    · intro x1 x2 x3 x4 hx
      cases hx
  | succ n ih =>
    intro d hd h hs
    cases d with
    | nil =>
      rw [sniLoop] at hs
      · cases hs
      · intro x1 x2 x3 x4 hx
        cases hx
    | cons t rest1 =>
      cases rest1 with
      | nil =>
        rw [sniLoop] at hs
        · cases hs
        · intro x1 x2 x3 x4 hx
          cases hx
      | cons l1 rest2 =>
        cases rest2 with
        | nil =>
          rw [sniLoop] at hs
          · cases hs
          · intro x1 x2 x3 x4 hx
            cases hx
        | cons l2 rest =>
          rw [sniLoop_cons] at hs
          by_cases h1 : rest.length < be16 l1 l2
          · rw [if_pos h1] at hs
            cases hs
          · rw [if_neg h1] at hs
            by_cases h2 : t = 0
            · rw [if_pos h2] at hs
              by_cases h3 : isValidHostname (rest.take (be16 l1 l2)) = true
              · rw [if_pos h3] at hs
                injection hs with hs
                exact hs ▸ h3
              · rw [if_neg h3] at hs
                cases hs
            · rw [if_neg h2] at hs
              refine ih (rest.drop (be16 l1 l2)) ?_ h hs
              simp only [List.length_drop]
              simp only [List.length_cons] at hd
              omega

theorem sniLoop_sound (d h : List Nat) (hs : sniLoop d = some h) :
    isValidHostname h = true :=
  sniLoop_sound_aux d.length d (le_refl _) h hs

theorem parseSNIExtension_sound (d h : List Nat)
    (hp : parseSNIExtension d = some h) : isValidHostname h = true := by
  cases d with
  | nil =>
    rw [parseSNIExtension] at hp
    · cases hp
    · intro x1 x2 x3 hx
      cases hx
  | cons d0 rest1 =>
    cases rest1 with
    | nil =>
      rw [parseSNIExtension] at hp
      · cases hp
      · intro x1 x2 x3 hx
        cases hx
    | cons d1 rest =>
      rw [parseSNIExtension_cons] at hp
      by_cases h1 : rest.length < be16 d0 d1
      · rw [if_pos h1] at hp
        cases hp
      · rw [if_neg h1] at hp
        exact sniLoop_sound rest h hp

theorem extLoop_sound_aux : ∀ (n : Nat) (d : List Nat), d.length ≤ n →
    ∀ h, extLoop d = some h → isValidHostname h = true := by
  intro n
  induction n with
  | zero =>
    intro d hd h hs
    rw [List.eq_nil_of_length_eq_zero (Nat.le_zero.mp hd)] at hs
    rw [extLoop] at hs
    · cases hs
    · intro x1 x2 x3 x4 x5 hx
      cases hx
  | succ n ih =>
    intro d hd h hs
    cases d with
    | nil =>
      rw [extLoop] at hs
      · cases hs
      · intro x1 x2 x3 x4 x5 hx
        cases hx
    | cons t0 rest1 =>
      cases rest1 with
      | nil =>
        rw [extLoop] at hs
        · cases hs
        · intro x1 x2 x3 x4 x5 hx
          cases hx
      | cons t1 rest2 =>
        cases rest2 with
        | nil =>
          rw [extLoop] at hs
          · cases hs
          · intro x1 x2 x3 x4 x5 hx
            cases hx
        | cons d0 rest3 =>
          cases rest3 with
          | nil =>
            rw [extLoop] at hs
            · cases hs
            · intro x1 x2 x3 x4 x5 hx
              cases hx
          | cons d1 rest =>
            rw [extLoop_cons] at hs
            by_cases h1 : rest.length < be16 d0 d1
            · rw [if_pos h1] at hs
              cases hs
            · rw [if_neg h1] at hs
              by_cases h2 : be16 t0 t1 = 0
              · rw [if_pos h2] at hs
                exact parseSNIExtension_sound _ h hs
              · rw [if_neg h2] at hs
                refine ih (rest.drop (be16 d0 d1)) ?_ h hs
                simp only [List.length_drop]
                simp only [List.length_cons] at hd
                omega

theorem extLoop_sound (d h : List Nat) (hs : extLoop d = some h) :
    isValidHostname h = true :=
  extLoop_sound_aux d.length d (le_refl _) h hs

theorem extractSNI_sound (payload h : List Nat)
    (hp : extractSNI payload = some h) : isValidHostname h = true := by
  unfold extractSNI at hp
  simp only [] at hp
  repeat' split at hp
  all_goals first
    | cases hp
    | exact extLoop_sound _ _ hp

/-- C6: for every well-formed ClientHello (correct fixed-width fields
and length prefixes, any session id / cipher suites / compression
methods, any preceding extensions of non-zero type and any preceding SNI
entries of non-zero name type) whose SNI extension carries hostname `h`,
`extractSNI` returns `h` when `h` is a valid hostname (length 1..255,
bytes in `[0x20, 0x7e]`, containing a dot) and an error when it is not;
and whenever `extractSNI` returns a hostname at all, on any byte string,
that hostname is valid. -/
theorem C6_sni_roundtrip (payload h : List Nat) :
    (∀ ver rand sid ciphers comps preExts pre,
      ver.length = 2 → rand.length = 32 →
      (∀ e ∈ preExts, e.1 ≠ 0) → (∀ e ∈ pre, e.1 ≠ 0) →
      extractSNI (mkClientHello ver rand sid ciphers comps preExts pre h)
        = if isValidHostname h then some h else none) ∧
    (extractSNI payload = some h → isValidHostname h = true) := by
  constructor
  · intro ver rand sid ciphers comps preExts pre hv hr hpx hpe
    exact extractSNI_mk ver rand sid ciphers comps preExts pre h hv hr hpx hpe
  · intro hp
    exact extractSNI_sound payload h hp

/-- The 32-byte random field of the C6 witness ClientHello. -/
def c6rand : List Nat := List.replicate 32 0

/-- C6 witness: the generated ClientHello with version bytes `[3, 1]`, a
zero random, empty session id / ciphers / compressions, one preceding
extension of type 5, one preceding SNI entry of name type 1, and
hostname `"a.b"` parses back to exactly that hostname, which is valid. -/
theorem C6_witness :
    extractSNI (mkClientHello [3, 1] c6rand [] [] [] [(5, [7])]
      [(1, [97])] [97, 46, 98]) = some [97, 46, 98] ∧
    isValidHostname [97, 46, 98] = true := by
  have h1 := (C6_sni_roundtrip [] [97, 46, 98]).1 [3, 1] c6rand [] [] []
    [(5, [7])] [(1, [97])] (by decide) (by simp [c6rand]) (by decide)
    (by decide)
  have h2 : extractSNI (mkClientHello [3, 1] c6rand [] [] [] [(5, [7])]
      [(1, [97])] [97, 46, 98]) = some [97, 46, 98] := by
    rw [h1, if_pos (by decide)]
  refine ⟨h2, ?_⟩
  exact (C6_sni_roundtrip (mkClientHello [3, 1] c6rand [] [] [] [(5, [7])]
    [(1, [97])] [97, 46, 98]) [97, 46, 98]).2 h2

end EddGateway
